import Mathlib

/-!
Verification of the authentication and key-exchange core of the eiwd wireless
daemon against its natural-language specification.  The C sources under
`src/ft.c`, `src/band.c`, `src/dpp-util.c` and `src/nl80211util.c` are shallowly
embedded below: byte buffers become `List Nat`, machine integers become `Nat`
or `Int`, fallible functions return `Option`, and the process-wide FT pending
list becomes explicit state passed through a step function.  Collaborator
primitives that live outside the sampled sources (ell checksum/ECC helpers,
`aes_siv_encrypt`/`aes_siv_decrypt` from `src/crypto.c`, the IE builders from
`src/ie.c`) are taken as parameters, constrained only by the contract the
specification states for them.
-/

/-! ## Part 1: definitions -/

namespace FTQ

/-- One pending FT transition, `struct ft_info` of `src/ft.c` restricted to the
fields that determine membership of the process-wide pending list: the
interface index, the target authenticator address `aa` (6 bytes), and the
status of the Authenticate/Action response (initialized to `-ENOENT` by
`ft_info_new`). -/
structure FtInfoEntry where
  ifindex : Nat
  aa : List Nat
  status : Int
deriving DecidableEq, Repr

/-- Status value a fresh `ft_info` gets in `ft_info_new`: `-ENOENT`. -/
def freshStatus : Int := -2

/-- The FT entry points of `src/ft.c` that mutate the process-wide
`info_list`.  `action`, `authenticate` and `authenticateOnchannel` model
`ft_action` (whose radio-work callback `ft_send_action` pushes the new entry
on successful transmission), `ft_authenticate` and `ft_authenticate_onchannel`
(which push directly).  `handshakeSetup` models `ft_handshake_setup` and
`clearAuthentications` models `ft_clear_authentications`. -/
inductive FtOp where
  | action (ifindex : Nat) (aa : List Nat)
  | authenticate (ifindex : Nat) (aa : List Nat)
  | authenticateOnchannel (ifindex : Nat) (aa : List Nat)
  | handshakeSetup (ifindex : Nat) (aa : List Nat)
  | clearAuthentications (ifindex : Nat)
deriving DecidableEq, Repr

/-- Predicate used by `ft_info_find` in `src/ft.c`: entry matches interface
index and (when given) the 6-byte `aa` via `memcmp`. -/
def ftMatch (i : Nat) (aa : List Nat) (e : FtInfoEntry) : Bool :=
  e.ifindex == i && e.aa == aa

/-- One step of the pending-list state machine.  `ft_action`,
`ft_authenticate` and `ft_authenticate_onchannel` create a fresh `ft_info` via
`ft_info_new` and `l_queue_push_tail` it without looking for an existing entry
with the same `(ifindex, aa)`.  `ft_handshake_setup` finds the first matching
entry; if its status is non-zero it removes just that entry, otherwise it
prepares the handshake and calls `ft_clear_authentications`, which removes
every entry of the interface. -/
def ftStep (l : List FtInfoEntry) : FtOp → List FtInfoEntry
  | .action i aa => l ++ [⟨i, aa, freshStatus⟩]
  | .authenticate i aa => l ++ [⟨i, aa, freshStatus⟩]
  | .authenticateOnchannel i aa => l ++ [⟨i, aa, freshStatus⟩]
  | .handshakeSetup i aa =>
      match l.find? (ftMatch i aa) with
      | none => l
      | some e =>
          if e.status ≠ 0 then l.eraseP (ftMatch i aa)
          else l.filter (fun e => !(e.ifindex == i))
  | .clearAuthentications i => l.filter (fun e => !(e.ifindex == i))

/-- Run a sequence of FT entry-point calls from the empty pending list
(`ft_init` creates `info_list` empty). -/
def ftRun (ops : List FtOp) : List FtInfoEntry :=
  ops.foldl ftStep []

/-- The claimed invariant: no two pending entries share `(ifindex, aa)`. -/
def ftNoDupPairs (l : List FtInfoEntry) : Prop :=
  l.Pairwise (fun a b => ¬(a.ifindex = b.ifindex ∧ a.aa = b.aa))

instance ftNoDupPairsDecidable (l : List FtInfoEntry) : Decidable (ftNoDupPairs l) :=
  List.instDecidablePairwise l

/-- The `(ifindex, aa)` pair an operation initiates a new attempt for, if
any. -/
def initPair : FtOp → Option (Nat × List Nat)
  | .action i aa => some (i, aa)
  | .authenticate i aa => some (i, aa)
  | .authenticateOnchannel i aa => some (i, aa)
  | _ => none

/-- Guarded sequences: every initiation happens only while no attempt for the
same `(ifindex, aa)` is pending (the serialization discipline of spec section
5: attempts on a given pair are strictly serialized). -/
def ftGuarded : List FtInfoEntry → List FtOp → Bool
  | _, [] => true
  | l, op :: ops =>
      (match initPair op with
       | some (i, aa) => l.find? (ftMatch i aa) == none
       | none => true) && ftGuarded (ftStep l op) ops

end FTQ

namespace FT

/-- The `mde_equal` check of `src/ft.c` (lines 370-383), byte for byte: both
pointers must be non-NULL, then the result is
`memcmp(mde1, mde1, mde1[1] + 2) == 0` — the received element `mde2` is never
read past the NULL check. -/
def mde_equal (mde1 mde2 : Option (List Nat)) : Bool :=
  match mde1, mde2 with
  | none, _ => false
  | some _, none => false
  | some m1, some _ =>
      (m1.take (m1.getD 1 0 + 2)) == (m1.take (m1.getD 1 0 + 2))

/-- Comparison the specification intends for `mde_equal`: the two elements are
byte-for-byte equal over the full IE length including tag and length. -/
def mde_equal_intended (mde1 mde2 : Option (List Nat)) : Bool :=
  match mde1, mde2 with
  | none, _ => false
  | some _, none => false
  | some m1, some m2 =>
      (m1.take (m1.getD 1 0 + 2)) == (m2.take (m1.getD 1 0 + 2))

/-- MAC algorithm selected by `ft_calculate_fte_mic`: `l_checksum_new_cmac_aes`
when the KCK is 16 bytes, HMAC-SHA384 otherwise (the digest is then read
truncated to the KCK length, 24 bytes). -/
inductive MacAlg where
  | cmac_aes128
  | hmac_sha384
deriving DecidableEq, Repr

/-- Handshake state (`struct handshake_state`, a collaborator of `src/ft.c`)
restricted to the fields `ft_prepare_handshake` and `ft_calculate_fte_mic`
read, taken at the point the MIC is computed (after `ft_prepare_handshake`
has installed the target `aa`, MDE, SNonce, ANonce and key-holder ids from
the pending `ft_info`). -/
structure HandshakeState where
  spa : List Nat
  aa : List Nat
  mde : List Nat
  snonce : List Nat
  anonce : List Nat
  r0khid : List Nat
  r1khid : List Nat
  pmk_r1_name : List Nat
  kck_len : Nat
  supplicant_ie : Option (List Nat)
  supplicant_ocvc : Bool
  chandef : Option (List Nat)
deriving DecidableEq, Repr

/-- Parsed RSN element (`struct ie_rsn_info` of the missing `src/ie.c`),
reduced to the fields `ft_prepare_handshake` overrides plus an opaque `base`
carrying everything else the parser extracted. -/
structure RsnInfo where
  base : List Nat
  num_pmkids : Nat
  pmkids : List Nat
  ocvc : Bool
deriving DecidableEq, Repr

/-- Parsed FT element (`struct ie_ft_info` of the missing `src/ie.c`),
reduced to the fields `ft_prepare_handshake` fills before building the FTE. -/
structure IeFtInfo where
  mic_element_count : Nat
  mic : List Nat
  r0khid : List Nat
  r1khid : List Nat
  r1khid_present : Bool
  anonce : List Nat
  snonce : List Nat
  oci : List Nat
  oci_present : Bool
deriving DecidableEq, Repr

/-- `ft_calculate_fte_mic` of `src/ft.c` (lines 75-132), exposed at the level
of the MAC invocation: the result is the algorithm selected from the KCK
length, the digest length requested (`kck_len`, i.e. HMAC-SHA384 truncated to
24 bytes for a 24-byte KCK), and the exact byte string the checksum is updated
with: `SPA(6) || AA(6) || seq(1) || RSNE? || MDE || (FTE first 4 bytes ||
zeroed MIC field || FTE tail) || RIC?`, each IE covered over `ie[1] + 2`
bytes. -/
def ft_calculate_fte_mic (hs : HandshakeState) (seq_num : Nat)
    (rsne fte ric : Option (List Nat)) : MacAlg × Nat × List Nat :=
  let msg :=
    hs.spa.take 6 ++ hs.aa.take 6 ++ [seq_num] ++
    (match rsne with | some r => r.take (r.getD 1 0 + 2) | none => []) ++
    hs.mde.take (hs.mde.getD 1 0 + 2) ++
    (match fte with
     | some f => f.take 4 ++ List.replicate hs.kck_len 0 ++
         ((f.drop (4 + hs.kck_len)).take (f.getD 1 0 + 2 - 4 - hs.kck_len))
     | none => []) ++
    (match ric with | some r => r.take (r.getD 1 0 + 2) | none => [])
  (if hs.kck_len = 16 then MacAlg.cmac_aes128 else MacAlg.hmac_sha384,
   hs.kck_len, msg)

/-- The reassociation-request part of `ft_prepare_handshake` of `src/ft.c`
(lines 790-897), exposed at the level of the MIC computation it performs.  The
IE builders of the missing `src/ie.c` (`ie_parse_rsne_from_data`,
`ie_build_rsne`, `ie_build_fast_bss_transition`) and `oci_from_chandef` are
parameters.  Returns `none` when no RSN is in use (the code returns early
without computing a MIC) or the supplicant RSNE fails to parse; otherwise the
`(algorithm, digest length, MAC input)` triple of the FTE MIC written into the
supplicant FTE. -/
def ft_prepare_handshake_mic
    (parseRsne : List Nat → Option RsnInfo)
    (buildRsne : RsnInfo → List Nat)
    (buildFte : IeFtInfo → Nat → List Nat)
    (ociFromChandef : List Nat → List Nat)
    (hs : HandshakeState) : Option (MacAlg × Nat × List Nat) :=
  match hs.supplicant_ie with
  | none => none
  | some sup =>
      match parseRsne (sup.take (sup.getD 1 0 + 2)) with
      | none => none
      | some info0 =>
          let rsn_info : RsnInfo :=
            { info0 with
                num_pmkids := 1
                pmkids := hs.pmk_r1_name
                ocvc := false }
          let rsne := buildRsne rsn_info
          let ftinfo : IeFtInfo :=
            { mic_element_count := 3
              mic := List.replicate 24 0
              r0khid := hs.r0khid
              r1khid := hs.r1khid.take 6
              r1khid_present := true
              anonce := hs.anonce.take 32
              snonce := hs.snonce.take 32
              oci := match hs.chandef with
                     | some cd =>
                         if hs.supplicant_ocvc then ociFromChandef cd else []
                     | none => []
              oci_present := hs.supplicant_ocvc && hs.chandef.isSome }
          let fte := buildFte ftinfo hs.kck_len
          some (ft_calculate_fte_mic hs 5 (some rsne) (some fte) none)

/-- MAC input the frozen claim states for the reassociation request:
`SPA || AA || seq || RSNE || MDE || FTE-with-MIC-zeroed` with `seq` the
single byte 6. -/
def claimed_reassoc_mic_input (hs : HandshakeState) (rsne fte : List Nat) :
    List Nat :=
  hs.spa ++ hs.aa ++ [6] ++ rsne ++ hs.mde ++
    (fte.take 4 ++ List.replicate hs.kck_len 0 ++ fte.drop (4 + hs.kck_len))

/-- Concrete handshake state for evaluating the MIC construction. -/
def toyHs : HandshakeState :=
  { spa := [1, 1, 1, 1, 1, 1]
    aa := [2, 2, 2, 2, 2, 2]
    mde := [54, 3, 9, 9, 9]
    snonce := List.replicate 32 3
    anonce := List.replicate 32 4
    r0khid := [5]
    r1khid := [6, 6, 6, 6, 6, 6]
    pmk_r1_name := List.replicate 16 7
    kck_len := 16
    supplicant_ie := some [48, 2, 0, 0]
    supplicant_ocvc := false
    chandef := none }

/-- Concrete stand-in for `ie_parse_rsne_from_data`: record the bytes and
parse no PMKIDs. -/
def toyParseRsne (l : List Nat) : Option RsnInfo := some ⟨l, 0, [], false⟩

/-- Concrete well-formed RSNE produced by the stand-in `ie_build_rsne`. -/
def toyRsneBytes : List Nat := [48, 4, 1, 2, 3, 4]

/-- Concrete stand-in for `ie_build_rsne`. -/
def toyBuildRsne (_ : RsnInfo) : List Nat := toyRsneBytes

/-- Concrete well-formed FTE (24 bytes, `fte[1] = 22`, 16-byte zero MIC at
offset 4) produced by the stand-in `ie_build_fast_bss_transition`. -/
def toyFteBytes : List Nat :=
  [55, 22, 0, 3] ++ List.replicate 16 0 ++ [9, 9, 9, 9]

/-- Concrete stand-in for `ie_build_fast_bss_transition`. -/
def toyBuildFte (_ : IeFtInfo) (_ : Nat) : List Nat := toyFteBytes

/-- Concrete stand-in for `oci_from_chandef`. -/
def toyOciFn (_ : List Nat) : List Nat := []

end FT

namespace Band

/-- RSSI→rate table `rate_rssi_map` of `src/band.c`: minimum RSSI required for
each legacy rate (rates in units of 500 kbit/s as encoded in the Supported
Rates IE). -/
def rate_rssi_map : List (Int × Nat) :=
  [(-90, 2), (-88, 4), (-86, 11), (-84, 22), (-82, 12), (-81, 18),
   (-79, 24), (-77, 36), (-74, 48), (-70, 72), (-66, 96), (-65, 108)]

/-- `peer_supports_rate` of `src/band.c`: the IE buffer is
`[tag, len, data...]`; iterate `i < rates[1]` comparing `rates[i + 2] & 0x7f`
(the basic-rate bit masked off) against `rate`. -/
def peer_supports_rate (rates : Option (List Nat)) (rate : Nat) : Bool :=
  match rates with
  | none => false
  | some ie =>
      if ie.getD 1 0 ≠ 0 then
        (List.range (ie.getD 1 0)).any (fun i => (ie.getD (i + 2) 0) % 128 == rate)
      else false

/-- Band record of `src/band.c` restricted to the legacy-rate fields used by
`band_estimate_nonht_rate`. -/
structure BandRec where
  supported_rates : List Nat
deriving Repr

/-- Loop body of `band_estimate_nonht_rate`: keep `max_rate` unless the
candidate is larger, appears in `rate_rssi_map` with `rssi` at or above its
threshold, and is advertised by the peer in either rates IE. -/
def nonhtStep (sr esr : Option (List Nat)) (rssi : Int) (max_rate rate : Nat) : Nat :=
  if max_rate ≥ rate then max_rate
  else
    match rate_rssi_map.find? (fun p => p.2 == rate) with
    | none => max_rate
    | some p =>
        if rssi < p.1 then max_rate
        else if peer_supports_rate sr rate || peer_supports_rate esr rate then rate
        else max_rate

/-- `band_estimate_nonht_rate` of `src/band.c`: fail with `-EINVAL` when both
rates IEs are absent, otherwise scan the band's rates from the back of the
array accumulating `max_rate`, fail when it stays 0 and otherwise output
`max_rate * 500000`. -/
def band_estimate_nonht_rate (band : BandRec) (sr esr : Option (List Nat))
    (rssi : Int) : Option Nat :=
  if sr = none ∧ esr = none then none
  else
    let max_rate := band.supported_rates.reverse.foldl (nonhtStep sr esr rssi) 0
    if max_rate = 0 then none else some (max_rate * 500000)

/-- A rate is eligible exactly when the loop of `band_estimate_nonht_rate`
would accept it: present in `rate_rssi_map` with sufficient RSSI and
advertised by the peer. -/
def eligible (sr esr : Option (List Nat)) (rssi : Int) (rate : Nat) : Bool :=
  (match rate_rssi_map.find? (fun p => p.2 == rate) with
   | none => false
   | some p => decide (p.1 ≤ rssi)) &&
  (peer_supports_rate sr rate || peer_supports_rate esr rate)

end Band

namespace NL

/-- Attribute identifiers handled by `handler_for_type` of
`src/nl80211util.c`; `other` covers every id that falls into the `default`
branch of the switch (the numeric values live in the missing
`linux/nl80211.h` header and do not affect parse behavior). -/
inductive NLAttr where
  | ifindex | wiphy | iftype | keyType | wdev | cookie | ifname | wiphyName
  | regAlpha2 | mac | ack | wiphyFreq | wiphyFreqOffset | wiphyChannelType
  | channelWidth | centerFreq1 | centerFreq2 | frame | wiphyBands | keyIdx
  | other (n : Nat)
deriving DecidableEq, Repr

/-- Semantic decoders (`extract_*`) of `src/nl80211util.c`. -/
inductive AttrHandler where
  | hIfindex | hUint32 | hUint64 | hName | h2Chars | hMac | hFlag | hIovec
  | hNested | hU8
deriving DecidableEq, Repr

/-- `handler_for_type` of `src/nl80211util.c` (lines 153-192): each attribute
type maps to exactly one decoder; ids outside the switch get `NULL`. -/
def handler_for_type : NLAttr → Option AttrHandler
  | .ifindex => some .hIfindex
  | .wiphy => some .hUint32
  | .iftype => some .hUint32
  | .keyType => some .hUint32
  | .wdev => some .hUint64
  | .cookie => some .hUint64
  | .ifname => some .hName
  | .wiphyName => some .hName
  | .regAlpha2 => some .h2Chars
  | .mac => some .hMac
  | .ack => some .hFlag
  | .wiphyFreq => some .hUint32
  | .wiphyFreqOffset => some .hUint32
  | .wiphyChannelType => some .hUint32
  | .channelWidth => some .hUint32
  | .centerFreq1 => some .hUint32
  | .centerFreq2 => some .hUint32
  | .frame => some .hIovec
  | .wiphyBands => some .hNested
  | .keyIdx => some .hU8
  | .other _ => none

/-- Decoded attribute value written through a caller-supplied output
pointer. -/
inductive AttrVal where
  | vU32 (n : Nat)
  | vU64 (n : Nat)
  | vU8 (n : Nat)
  | vName (s : List Nat)
  | v2Chars (a b : Nat)
  | vMac (m : List Nat)
  | vFlag (b : Bool)
  | vIovec (d : List Nat)
  | vNested (d : List Nat)
deriving DecidableEq, Repr

/-- Little-endian integer value of a payload (`l_get_u32`/`l_get_u64`). -/
def leVal (payload : List Nat) : Nat :=
  payload.foldr (fun b acc => b % 256 + 256 * acc) 0

/-- One `extract_*` decoder applied to a payload.  The outer `Option` is the
decoder's boolean result; the inner `Option AttrVal` is the value written to
the output (`extract_flag` succeeds on an empty payload but writes nothing
during the scan: its output is filled from the presence bit afterwards). -/
def decodeAttr : AttrHandler → List Nat → Option (Option AttrVal)
  | .hIfindex, p =>
      if p.length = 4 then
        if leVal p = 0 then none else some (some (.vU32 (leVal p)))
      else none
  | .hUint32, p => if p.length = 4 then some (some (.vU32 (leVal p))) else none
  | .hUint64, p => if p.length = 8 then some (some (.vU64 (leVal p))) else none
  | .hName, p =>
      if 1 ≤ p.length ∧ 0 ∈ p.drop 1 then some (some (.vName p)) else none
  | .h2Chars, p =>
      match p with
      | [a, b, c] => if c = 0 then some (some (.v2Chars a b)) else none
      | _ => none
  | .hMac, p => if p.length = 6 then some (some (.vMac p)) else none
  | .hFlag, p => if p = [] then some none else none
  | .hIovec, p => some (some (.vIovec p))
  | .hNested, p => some (some (.vNested p))
  | .hU8, p =>
      match p with
      | [a] => some (some (.vU8 a))
      | _ => none

/-- Decoder of a requested type: `handler_for_type` then `decodeAttr` (the
scan loop of `nl80211_parse_attrs` uses the handler stored on the entry). -/
def decodeOfType (t : NLAttr) (p : List Nat) : Option (Option AttrVal) :=
  match handler_for_type t with
  | some h => decodeAttr h p
  | none => none

/-- Position of the first entry of type `t` in the request list — the scan
loop of `nl80211_parse_attrs` walks `entries` and stops at the first type
match. -/
def findReq (reqs : List NLAttr) (t : NLAttr) : Option Nat :=
  match reqs with
  | [] => none
  | r :: rest => if r = t then some 0 else (findReq rest t).map (· + 1)

/-- Errors of `nl80211_parse_attrs`: `-EINVAL`, `-ENOSYS`, `-EALREADY`,
`-ENOENT`. -/
inductive NLErr where
  | einval | enosys | ealready | enoent
deriving DecidableEq, Repr

/-- Caller-visible state of one `nl80211_parse_attrs` call: per-request-index
presence bits (the `present` bit of `struct attr_entry`) and the
caller-supplied output locations (`none` = never written). -/
structure ParseState where
  present : Nat → Bool
  store : Nat → Option AttrVal

/-- Pointwise update. -/
def upd {α : Type} (f : Nat → α) (i : Nat) (v : α) : Nat → α :=
  fun j => if j = i then v else f j

/-- State update of a successful decode during the scan: mark the entry
present; write the decoded value if the decoder produced one (`extract_flag`
produces none). -/
def scanWrite (st : ParseState) (idx : Nat) (w : Option AttrVal) : ParseState :=
  ⟨upd st.present idx true,
   match w with
   | some v => upd st.store idx (some v)
   | none => st.store⟩

/-- Message-scanning loop of `nl80211_parse_attrs` (lines 236-262): for each
attribute of the message, look up the first matching request entry; skip
unrequested attributes; a second occurrence of a requested type is
`-EALREADY`; a decoder rejection is `-EINVAL`; on success the output is
written and the entry marked present.  (The `handler_for_type` `none` branch
is unreachable here: the entry-building loop already returned `-ENOSYS`.) -/
def nlScan (reqs : List NLAttr) (st : ParseState)
    (msg : List (NLAttr × List Nat)) : Option NLErr × ParseState :=
  match msg with
  | [] => (none, st)
  | (t, payload) :: rest =>
      match findReq reqs t with
      | none => nlScan reqs st rest
      | some idx =>
          if st.present idx then (some .ealready, st)
          else
            match handler_for_type t with
            | none => (some .enosys, st)
            | some h =>
                match decodeAttr h payload with
                | none => (some .einval, st)
                | some w => nlScan reqs (scanWrite st idx w) rest

/-- Final loop of `nl80211_parse_attrs` (lines 264-280): walk the request
entries in order; a flag-typed entry receives its presence bit as a boolean;
any other entry that is not present is `-ENOENT`. -/
def nlFinal (rem : List NLAttr) (i : Nat) (st : ParseState) :
    Option NLErr × ParseState :=
  match rem with
  | [] => (none, st)
  | t :: rest =>
      if handler_for_type t == some AttrHandler.hFlag then
        nlFinal rest (i + 1)
          ⟨st.present, upd st.store i (some (.vFlag (st.present i)))⟩
      else if st.present i then nlFinal rest (i + 1) st
      else (some .enoent, st)

/-- Fresh state: no entry present, no output written. -/
def initState : ParseState := ⟨fun _ => false, fun _ => none⟩

/-- `nl80211_parse_attrs` of `src/nl80211util.c` (lines 201-285) over an
already-iterable attribute message (the `l_genl_attr_init` failure mode of a
malformed netlink buffer is outside the model).  The entry-building loop
returns `-ENOSYS` as soon as a requested id has no decoder in the schema;
then the message is scanned; then missing entries are checked. -/
def nl80211_parse_attrs (msg : List (NLAttr × List Nat))
    (reqs : List NLAttr) : Option NLErr × ParseState :=
  if reqs.any (fun t => (handler_for_type t).isNone) then (some .enosys, initState)
  else
    match nlScan reqs initState msg with
    | (some e, st) => (some e, st)
    | (none, st) => nlFinal reqs 0 st

end NL

namespace DPP

/-- `dpp_derive_li` of `src/dpp-util.c` (6.3.4 DPP Authentication Confirm):
`L = bI * (BR + PR)` — `l_ecc_point_add` then `l_ecc_point_multiply`.  The ECC
group (an ell collaborator) is an additive commutative group `M`; scalar
multiplication by a private key is `Nat` scalar action. -/
def dpp_derive_li {M : Type} [AddCommGroup M]
    (boot_public proto_public : M) (boot_private : Nat) : M :=
  boot_private • (boot_public + proto_public)

/-- `dpp_derive_lr` of `src/dpp-util.c` (6.3.3 DPP Authentication Response):
`L = ((bR + pR) modulo q) * BI` — `l_ecc_scalar_add` reduces the sum modulo
the curve order `q` (`l_ecc_curve_get_order`), then `l_ecc_point_multiply`. -/
def dpp_derive_lr {M : Type} [AddCommGroup M]
    (q boot_private proto_private : Nat) (peer_public : M) : M :=
  ((boot_private + proto_private) % q) • peer_public

/-- Index of the first occurrence of `c` in `s` (`strchr`). -/
def chrIdx (s : List Char) (c : Char) : Option Nat :=
  match s with
  | [] => none
  | a :: rest => if a = c then some 0 else (chrIdx rest c).map (· + 1)

/-- `TOKEN_NEXT(p, sep)` of `src/dpp-util.c`: position just past the next
`sep`, or NULL when there is no `sep` or the character after it is the
terminating NUL (i.e. `sep` is the last character). -/
def tokenNext (s : List Char) (c : Char) : Option (List Char) :=
  match chrIdx s c with
  | none => none
  | some i => if i + 1 = s.length then none else some (s.drop (i + 1))

/-- `TOKEN_LEN(p, sep)` of `src/dpp-util.c`: characters until the next
`sep`, zero when no `sep` exists. -/
def tokenLen (s : List Char) (c : Char) : Nat :=
  match chrIdx s c with
  | none => 0
  | some i => i

/-- `TOKEN_OK(p)` of `src/dpp-util.c`: `p` non-NULL, `p[0]` not NUL, `p[1]`
is a colon and `p[2]` not NUL — on a NUL-free char list: at least three
characters with a colon in second position. -/
def tokenOk (s : List Char) : Bool :=
  match s with
  | _ :: c1 :: _ :: _ => c1 == ':'
  | _ => false

/-- `struct dpp_uri_info` with the bootstrapping public key abstracted to a
type `α` (the ell ECC point).  `mac` and `version` are plain zero-initialized
fields in the C struct; the pointer fields are `Option`. -/
structure DppUriInfo (α : Type) where
  freqs : Option (List Nat)
  mac : List Nat
  version : Nat
  boot_public : Option α
  information : Option (List Char)
  host : Option (List Char)
deriving DecidableEq, Repr

/-- Token-value validators of `dpp_parse_uri`, taken as parameters:
`dpp_parse_class_and_channel` (OCI-checked frequency set),
`dpp_parse_mac` (12 hex chars, valid station address),
`dpp_parse_version` (1 or 2) and `dpp_parse_key` (base64-decoded
SubjectPublicKeyInfo of a supported curve, via the ell collaborators). -/
structure UriValidators (α : Type) where
  parseC : List Char → Option (List Nat)
  parseM : List Char → Option (List Nat)
  parseV : List Char → Option Nat
  parseK : List Char → Option α

/-- Switch body of the token loop of `dpp_parse_uri` (src/dpp-util.c lines
1167-1193): dispatch on the token id character, run the id's validator on the
value and store its result; `H` and `I` discard the value; any other id is an
error. -/
def uriApplyTok {α : Type} (V : UriValidators α) (c0 : Char) (val : List Char)
    (info : DppUriInfo α) : Option (DppUriInfo α) :=
  match c0 with
  | 'C' => (V.parseC val).map (fun f => { info with freqs := some f })
  | 'M' => (V.parseM val).map (fun m => { info with mac := m })
  | 'V' => (V.parseV val).map (fun v => { info with version := v })
  | 'K' => (V.parseK val).map (fun k => { info with boot_public := some k })
  | 'H' => some info
  | 'I' => some info
  | _ => none

/-- Token loop of `dpp_parse_uri` (src/dpp-util.c lines 1161-1194).  Runs as
long as `TOKEN_OK` holds: the token value (from `pos + 2`, `TOKEN_LEN`
characters) must be non-empty, the id's validator must succeed, and `pos`
advances with `TOKEN_NEXT`.  Result: `none` on validation failure, otherwise
the final `pos` (`none` models the NULL pointer from `TOKEN_NEXT`) and the
accumulated info.  `fuel` only bounds the iteration count for structural
recursion: every iteration strictly shortens `pos` (`TOKEN_NEXT` drops at
least one character), so any fuel above the initial `pos` length is never
exhausted. -/
def uriLoop {α : Type} (V : UriValidators α) (fuel : Nat) (pos : List Char)
    (info : DppUriInfo α) : Option (Option (List Char) × DppUriInfo α) :=
  match fuel with
  | 0 => none
  | fuel + 1 =>
    if tokenOk pos = true then
      let len := tokenLen (pos.drop 2) ';'
      if len = 0 then none
      else
        match uriApplyTok V (pos.headD ':') ((pos.drop 2).take len) info with
        | none => none
        | some info2 =>
            match tokenNext pos ';' with
            | none => some (none, info2)
            | some pos2 => uriLoop V fuel pos2 info2
    else some (some pos, info)

/-- Zero-initialized `dpp_uri_info` (`l_new`). -/
def uriInfoInit {α : Type} : DppUriInfo α :=
  ⟨none, List.replicate 6 0, 0, none, none, none⟩

/-- `dpp_parse_uri` of `src/dpp-util.c` (lines 1146-1209): require the
`DPP:` prefix, run the token loop from `uri + 4`, then require
`pos == end` where `end = uri + strlen(uri) - 1` points at the LAST character
(on suffixes: the remaining suffix has exactly one character; a NULL `pos`
never equals `end`), and finally require the mandatory bootstrapping key. -/
def dpp_parse_uri {α : Type} (V : UriValidators α) (uri : List Char) :
    Option (DppUriInfo α) :=
  if uri.take 4 = ['D', 'P', 'P', ':'] then
    match uriLoop V (uri.length + 1) (uri.drop 4) uriInfoInit with
    | none => none
    | some (posFinal, info) =>
        match posFinal with
        | none => none
        | some rest =>
            if rest.length = 1 then
              if info.boot_public.isSome then some info else none
            else none
  else none

/-- Flattening of a token list back into URI body characters: each token
`(c, v)` contributes `c : v ;`. -/
def tokensFlat (toks : List (Char × List Char)) : List Char :=
  (toks.map (fun tv => tv.1 :: ':' :: tv.2 ++ [';'])).flatten

/-- A well-formed accepted token: non-empty value without a token separator,
recognized id, and the id's validator succeeds (`H` and `I` only need the
non-empty value). -/
def tokWf {α : Type} (V : UriValidators α) (tv : Char × List Char) : Prop :=
  tv.2 ≠ [] ∧ ';' ∉ tv.2 ∧
  match tv.1 with
  | 'C' => (V.parseC tv.2).isSome = true
  | 'M' => (V.parseM tv.2).isSome = true
  | 'V' => (V.parseV tv.2).isSome = true
  | 'K' => (V.parseK tv.2).isSome = true
  | 'H' => True
  | 'I' => True
  | _ => False

/-- Concrete validator stand-ins for evaluating the URI parser: every value
accepted, the key validator returning the value's length as the "point". -/
def toyUriV : UriValidators Nat :=
  ⟨fun _ => some [2412], fun _ => some [82, 84, 0, 88, 40, 229],
   fun _ => some 2, fun v => some v.length⟩

/-- Concrete URI `DPP:K:x;;` (the well-terminated form). -/
def toyUriGood : List Char := ['D', 'P', 'P', ':', 'K', ':', 'x', ';', ';']

/-- Concrete URI `DPP:K:x;Z`: the last token is properly closed by `;` but
the URI ends in `Z`, not the additional `;` the claim requires. -/
def toyUriOddEnd : List Char := ['D', 'P', 'P', ':', 'K', ':', 'x', ';', 'Z']

/-- Concrete URI `DPP:K:x;I:ab;H:cd;;` carrying information and host
tokens. -/
def toyUriWithIH : List Char :=
  ['D', 'P', 'P', ':', 'K', ':', 'x', ';', 'I', ':', 'a', 'b', ';',
   'H', ':', 'c', 'd', ';', ';']

/-- Parse result for `toyUriGood`, `toyUriOddEnd` and `toyUriWithIH` under
`toyUriV`: only the key field is set (value length 1). -/
def toyUriParsed : DppUriInfo Nat :=
  ⟨none, List.replicate 6 0, 0, some 1, none, none⟩

/-- Invariant a successful run of the token loop satisfies: information and
host untouched, and a run that ends at a non-NULL position splits the
consumed input into well-formed tokens, with the bootstrapping key either
untouched or produced by a `K` token's validator. -/
def uriLoopSpec {α : Type} (V : UriValidators α) (pos : List Char)
    (info : DppUriInfo α) (res : Option (List Char) × DppUriInfo α) : Prop :=
  (res.2.information = info.information ∧ res.2.host = info.host) ∧
  ∀ rest, res.1 = some rest →
    ∃ toks, pos = tokensFlat toks ++ rest ∧
      (∀ tv ∈ toks, tokWf V tv) ∧
      (res.2.boot_public = info.boot_public ∨
        ∃ tv ∈ toks, tv.1 = 'K' ∧
          ∃ k, V.parseK tv.2 = some k ∧ res.2.boot_public = some k)

/-- `l_put_le16`: little-endian 16-bit serialization into two bytes. -/
def le16 (n : Nat) : List Nat := [n % 256, n / 256 % 256]

/-- Modelled from the spec: the wrapped-data attribute type id
`DPP_ATTR_WRAPPED_DATA` is declared in a header absent from `src/`; spec
section 6 fixes it as 0x1E. -/
def DPP_ATTR_WRAPPED_DATA : Nat := 0x1E

/-- The SIV plaintext built by the second va_list walk of
`dpp_append_wrapped_data` (lines 512-524): per attribute
`u16 type | u16 len | data`. -/
def dppSerializeAttrs (attrs : List (Nat × List Nat)) : List Nat :=
  (attrs.map (fun a => le16 a.1 ++ le16 a.2.length ++ a.2)).flatten

/-- `attrs_len` as computed by the first va_list walk of
`dpp_append_wrapped_data` (lines 494-499): each attribute contributes its
data length plus 4 header bytes. -/
def dppAttrsLen (attrs : List (Nat × List Nat)) : Nat :=
  attrs.foldl (fun acc a => acc + (a.2.length + 4)) 0

/-- The `struct iovec ad[2]` chunk list both functions build from the
optional `ad0`/`ad1` arguments (a NULL pointer is skipped). -/
def dppAdList (ad0 ad1 : Option (List Nat)) : List (List Nat) :=
  (match ad0 with | some a => [a] | none => []) ++
  (match ad1 with | some a => [a] | none => [])

/-- `dpp_append_wrapped_data` of `src/dpp-util.c` (lines 478-553) with the
AES-SIV primitive of the absent `src/crypto.c` abstracted as the
collaborator `enc` (deterministic SIV encryption of a plaintext under a key
and a list of associated-data chunks). The C returns false when the output
buffer cannot hold header plus ciphertext; otherwise it emits
`u16 DPP_ATTR_WRAPPED_DATA | u16 (attrs_len + 16) | ciphertext`. -/
def dpp_append_wrapped_data
    (enc : List Nat → List (List Nat) → List Nat → List Nat)
    (ad0 ad1 : Option (List Nat)) (to_len : Nat) (key : List Nat)
    (attrs : List (Nat × List Nat)) : Option (List Nat) :=
  if to_len < dppAttrsLen attrs + 4 + 16 then none
  else some (le16 DPP_ATTR_WRAPPED_DATA ++ le16 (dppAttrsLen attrs + 16) ++
    enc key (dppAdList ad0 ad1) (dppSerializeAttrs attrs))

/-- `dpp_unwrap_attr` of `src/dpp-util.c` (lines 432-464) with AES-SIV
decryption abstracted as the collaborator `dec`: on success the plaintext is
returned together with `*unwrapped_len = wrapped_len - 16`. -/
def dpp_unwrap_attr
    (dec : List Nat → List (List Nat) → List Nat → Option (List Nat))
    (ad0 ad1 : Option (List Nat)) (key wrapped : List Nat) :
    Option (List Nat × Nat) :=
  match dec key (dppAdList ad0 ad1) wrapped with
  | none => none
  | some pt => some (pt, wrapped.length - 16)

/-- One byte flipped: `l2` agrees with `l1` except at one in-range position,
where it holds a different byte. -/
def flip1 (l1 l2 : List Nat) : Prop :=
  ∃ i b, i < l1.length ∧ b ≠ l1.getD i 0 ∧ l2 = l1.set i b

/-- One AD chunk flipped: same number of chunks, one chunk of `ads2` a
one-byte flip of the corresponding chunk of `ads`, all others equal. -/
def adFlip (ads ads2 : List (List Nat)) : Prop :=
  ads.length = ads2.length ∧
  ∃ n, n < ads.length ∧ flip1 (ads.getD n []) (ads2.getD n []) ∧
    ∀ m, m < ads.length → m ≠ n → ads.getD m [] = ads2.getD m []

/-- Injective encoding of a byte list into a single number. -/
def encL (l : List Nat) : Nat := l.foldr (fun a r => Nat.pair a r + 1) 0

/-- Injective encoding of an AD chunk list into a single number. -/
def encLL (ls : List (List Nat)) : Nat := encL (ls.map encL)

/-- Injective encoding of a (key, AD, plaintext) encryption context. -/
def encCtx (k : List Nat) (ads : List (List Nat)) (pt : List Nat) : Nat :=
  Nat.pair (encL k) (Nat.pair (encLL ads) (encL pt))

/-- Concrete SIV-contract instance for evaluation: the 16-byte synthetic IV
is the full context code followed by fifteen zeros, the ciphertext body the
plaintext itself. -/
def toySivEnc (k : List Nat) (ads : List (List Nat)) (pt : List Nat) :
    List Nat :=
  encCtx k ads pt :: (List.replicate 15 0 ++ pt)

/-- Matching decryption: strip the 16-byte IV and re-check it against the
context. -/
def toySivDec (k : List Nat) (ads : List (List Nat)) (ct : List Nat) :
    Option (List Nat) :=
  if ct = toySivEnc k ads (ct.drop 16) then some (ct.drop 16) else none

end DPP

/-! ## Part 2: theorems -/

namespace FTQ

theorem ftStep_sublist_or_append (l : List FtInfoEntry) (op : FtOp) :
    (ftStep l op).Sublist l ∨ ∃ i aa, initPair op = some (i, aa) ∧
      ftStep l op = l ++ [⟨i, aa, freshStatus⟩] := by
  cases op with
  | action i aa => exact Or.inr ⟨i, aa, rfl, rfl⟩
  | authenticate i aa => exact Or.inr ⟨i, aa, rfl, rfl⟩
  | authenticateOnchannel i aa => exact Or.inr ⟨i, aa, rfl, rfl⟩
  | handshakeSetup i aa =>
      left
      simp only [ftStep]
      cases l.find? (ftMatch i aa) with
      | none => exact List.Sublist.refl l
      | some e =>
          dsimp only
          by_cases h : e.status ≠ 0
          · rw [if_pos h]
            exact List.eraseP_sublist l
          · rw [if_neg h]
            exact List.filter_sublist l
  | clearAuthentications i =>
      left
      simp only [ftStep]
      exact List.filter_sublist l

theorem ftNoDupPairs_step (l : List FtInfoEntry) (op : FtOp)
    (hl : ftNoDupPairs l)
    (hg : match initPair op with
          | some (i, aa) => l.find? (ftMatch i aa) = none
          | none => True) :
    ftNoDupPairs (ftStep l op) := by
  rcases ftStep_sublist_or_append l op with hsub | ⟨i, aa, hop, happ⟩
  · exact List.Pairwise.sublist hsub hl
  · unfold ftNoDupPairs at hl ⊢
    rw [happ]
    rw [List.pairwise_append]
    refine ⟨hl, List.pairwise_singleton _ _, ?_⟩
    intro a ha b hb
    simp only [List.mem_singleton] at hb
    subst hb
    rw [hop] at hg
    have := List.find?_eq_none.mp hg a ha
    simp only [ftMatch, Bool.and_eq_true, beq_iff_eq] at this
    intro hcon
    exact this ⟨hcon.1, hcon.2⟩

theorem ftGuarded_noDup (ops : List FtOp) :
    ∀ l, ftNoDupPairs l → ftGuarded l ops = true →
      ftNoDupPairs (ops.foldl ftStep l) := by
  induction ops with
  | nil => intro l h _; exact h
  | cons op ops ih =>
      intro l hl hg
      simp only [ftGuarded, Bool.and_eq_true] at hg
      refine ih (ftStep l op) ?_ hg.2
      apply ftNoDupPairs_step l op hl
      cases hpair : initPair op with
      | none => trivial
      | some p =>
          cases p with
          | mk i aa =>
              simp only [hpair] at hg
              simpa using hg.1

/-- Claim C1 (corrected): the FT entry points do not deduplicate attempts, so
the invariant "at most one attempt per `(ifindex, aa)`" holds only for guarded
sequences, in which an attempt for a pair is initiated only while no attempt
for that pair is pending (the serialization discipline spec section 5
assumes).  For every such sequence of calls to `ft_action`,
`ft_authenticate`, `ft_authenticate_onchannel`, `ft_handshake_setup` and
`ft_clear_authentications` starting from the empty list, no two pending
`ft_info` entries share their `(ifindex, aa)` pair. -/
theorem ft_guarded_at_most_one_attempt_per_pair (ops : List FtOp)
    (hg : ftGuarded [] ops = true) : ftNoDupPairs (ftRun ops) :=
  ftGuarded_noDup ops [] (List.Pairwise.nil) hg

/-- Witness for `ft_guarded_at_most_one_attempt_per_pair`: a guarded sequence
that authenticates to the same target twice with a successful
`ft_handshake_setup` in between (which clears the interface) keeps the
invariant. -/
theorem ft_guarded_at_most_one_attempt_per_pair_witness :
    ftGuarded [] [FtOp.authenticate 7 [1, 2, 3, 4, 5, 6],
                  FtOp.handshakeSetup 7 [1, 2, 3, 4, 5, 6],
                  FtOp.authenticate 7 [1, 2, 3, 4, 5, 6]] = true ∧
    ftNoDupPairs (ftRun [FtOp.authenticate 7 [1, 2, 3, 4, 5, 6],
                  FtOp.handshakeSetup 7 [1, 2, 3, 4, 5, 6],
                  FtOp.authenticate 7 [1, 2, 3, 4, 5, 6]]) :=
  ⟨by decide, ft_guarded_at_most_one_attempt_per_pair _ (by decide)⟩

/-- Claim C1, counterexample to the claim as frozen: two consecutive
`ft_authenticate` calls for the same `(ifindex, aa)` leave two pending
attempts with identical pairs — `ft_authenticate` (src/ft.c lines 1065-1080)
pushes unconditionally, so the unguarded invariant is false. -/
theorem ft_duplicate_pair_counterexample :
    ¬ ftNoDupPairs (ftRun [FtOp.authenticate 7 [1, 2, 3, 4, 5, 6],
                           FtOp.authenticate 7 [1, 2, 3, 4, 5, 6]]) := by
  decide

end FTQ

namespace FT

/-- Claim C3 (code bug): `mde_equal` compares the sent MDE with itself
(`memcmp(mde1, mde1, mde1[1] + 2)` in src/ft.c line 382), so an FT
authentication response whose MDE differs byte-for-byte from the one sent
still passes the MDE check of `ft_parse_ies`, and the attempt can be marked
successful; the intended comparison rejects it.  Concrete failing input: sent
MDE body `[17, 34, 51]`, received MDE IE `[54, 3, 99, 99, 99]`. -/
theorem mde_equal_ignores_received_mde :
    mde_equal (some [17, 34, 51]) (some [54, 3, 99, 99, 99]) = true ∧
    mde_equal_intended (some [17, 34, 51]) (some [54, 3, 99, 99, 99]) = false ∧
    ([17, 34, 51] : List Nat) ≠ [54, 3, 99, 99, 99] := by
  decide

/-- Claim C2 (corrected): what `ft_prepare_handshake` actually feeds the MAC
for the reassociation request.  Under well-formedness of the IE builders of
the missing `src/ie.c`, the MAC input is the exact concatenation
`SPA || AA || seq || RSNE || MDE || FTE-with-MIC-zeroed` with the FTE built
with MIC element count 3, the digest length is the KCK length (truncating
HMAC-SHA384 to 24 bytes for a 24-byte KCK), and the MAC is AES-128-CMAC for a
16-byte KCK and HMAC-SHA384 otherwise — but `seq` is the single byte 5, not 6
as the frozen claim states (src/ft.c line 888 passes 5; 6 is used when
validating the reassociation response in `__ft_rx_associate`). -/
theorem ft_prepare_handshake_mic_spec
    (parseRsne : List Nat → Option RsnInfo)
    (buildRsne : RsnInfo → List Nat)
    (buildFte : IeFtInfo → Nat → List Nat)
    (ociFromChandef : List Nat → List Nat)
    (hs : HandshakeState) (sup : List Nat) (info0 : RsnInfo)
    (hsup : hs.supplicant_ie = some sup)
    (hparse : parseRsne (sup.take (sup.getD 1 0 + 2)) = some info0)
    (hspa : hs.spa.length = 6) (haa : hs.aa.length = 6)
    (hmde : hs.mde.getD 1 0 + 2 = hs.mde.length)
    (hrsne : ∀ ri, (buildRsne ri).getD 1 0 + 2 = (buildRsne ri).length)
    (hfte : ∀ fi, (buildFte fi hs.kck_len).getD 1 0 + 2 =
        (buildFte fi hs.kck_len).length ∧
        4 + hs.kck_len ≤ (buildFte fi hs.kck_len).length) :
    ft_prepare_handshake_mic parseRsne buildRsne buildFte ociFromChandef hs =
      some
        (if hs.kck_len = 16 then MacAlg.cmac_aes128 else MacAlg.hmac_sha384,
         hs.kck_len,
         hs.spa ++ hs.aa ++ [5] ++
           buildRsne { info0 with
                num_pmkids := 1
                pmkids := hs.pmk_r1_name
                ocvc := false } ++
           hs.mde ++
           (let fte := buildFte
              { mic_element_count := 3
                mic := List.replicate 24 0
                r0khid := hs.r0khid
                r1khid := hs.r1khid.take 6
                r1khid_present := true
                anonce := hs.anonce.take 32
                snonce := hs.snonce.take 32
                oci := match hs.chandef with
                       | some cd =>
                           if hs.supplicant_ocvc then ociFromChandef cd else []
                       | none => []
                oci_present := hs.supplicant_ocvc && hs.chandef.isSome }
              hs.kck_len
            fte.take 4 ++ List.replicate hs.kck_len 0 ++
              fte.drop (4 + hs.kck_len))) := by
  unfold ft_prepare_handshake_mic
  rw [hsup]
  dsimp only
  rw [hparse]
  dsimp only
  unfold ft_calculate_fte_mic
  dsimp only
  have hspa2 : hs.spa.take 6 = hs.spa := by
    rw [← hspa]; exact List.take_length hs.spa
  have haa2 : hs.aa.take 6 = hs.aa := by
    rw [← haa]; exact List.take_length hs.aa
  have hmde2 : hs.mde.take (hs.mde.getD 1 0 + 2) = hs.mde := by
    rw [hmde]; exact List.take_length hs.mde
  have hrsne2 : ∀ ri, (buildRsne ri).take ((buildRsne ri).getD 1 0 + 2) =
      buildRsne ri := by
    intro ri; rw [hrsne ri]; exact List.take_length _
  have hfte2 : ∀ fi, ((buildFte fi hs.kck_len).drop (4 + hs.kck_len)).take
      ((buildFte fi hs.kck_len).getD 1 0 + 2 - 4 - hs.kck_len) =
      (buildFte fi hs.kck_len).drop (4 + hs.kck_len) := by
    intro fi
    obtain ⟨h1, h2⟩ := hfte fi
    have h3 : (buildFte fi hs.kck_len).getD 1 0 + 2 - 4 - hs.kck_len =
        ((buildFte fi hs.kck_len).drop (4 + hs.kck_len)).length := by
      rw [List.length_drop]; omega
    rw [h3]; exact List.take_length _
  rw [hspa2, haa2, hmde2, hrsne2, hfte2]
  simp only [List.append_nil]

/-- Witness for `ft_prepare_handshake_mic_spec`: concrete handshake state and
IE builder stand-ins; the MIC input carries the seq byte 5 at offset 12. -/
theorem ft_prepare_handshake_mic_spec_witness :
    ft_prepare_handshake_mic toyParseRsne toyBuildRsne toyBuildFte toyOciFn
        toyHs =
      some (MacAlg.cmac_aes128, 16,
        [1, 1, 1, 1, 1, 1] ++ [2, 2, 2, 2, 2, 2] ++ [5] ++
          [48, 4, 1, 2, 3, 4] ++ [54, 3, 9, 9, 9] ++
          ([55, 22, 0, 3] ++ List.replicate 16 0 ++ [9, 9, 9, 9])) := by
  have h := ft_prepare_handshake_mic_spec toyParseRsne toyBuildRsne toyBuildFte
    toyOciFn toyHs [48, 2, 0, 0] ⟨[48, 2, 0, 0], 0, [], false⟩ rfl rfl
    (by decide) (by decide) (by decide) (fun _ => rfl)
    (fun _ => ⟨rfl, by norm_num [toyBuildFte, toyFteBytes, toyHs]⟩)
  rw [h]
  decide

/-- Claim C2, counterexample to the claim as frozen: at a concrete handshake
state the MAC input computed by `ft_prepare_handshake` differs from the
claimed concatenation — byte 12 (the seq byte, after 6 bytes of SPA and 6 of
AA) is 5 where the claim requires 6. -/
theorem ft_prepare_handshake_seq6_counterexample :
    (ft_prepare_handshake_mic toyParseRsne toyBuildRsne toyBuildFte toyOciFn
        toyHs).map (fun out => out.2.2) ≠
      some (claimed_reassoc_mic_input toyHs toyRsneBytes toyFteBytes) ∧
    (ft_prepare_handshake_mic toyParseRsne toyBuildRsne toyBuildFte toyOciFn
        toyHs).map (fun out => out.2.2.getD 12 0) = some 5 ∧
    (claimed_reassoc_mic_input toyHs toyRsneBytes toyFteBytes).getD 12 0 = 6 := by
  refine ⟨?_, by decide, by decide⟩
  decide

end FT

namespace Band

theorem nonhtStep_ge (sr esr : Option (List Nat)) (rssi : Int) (acc rate : Nat) :
    acc ≤ nonhtStep sr esr rssi acc rate := by
  unfold nonhtStep
  by_cases h : acc ≥ rate
  · rw [if_pos h]
  · rw [if_neg h]
    cases rate_rssi_map.find? (fun p => p.2 == rate) with
    | none => exact Nat.le_refl acc
    | some p =>
        dsimp only
        by_cases h2 : rssi < p.1
        · rw [if_pos h2]
        · rw [if_neg h2]
          by_cases h3 : (peer_supports_rate sr rate || peer_supports_rate esr rate) = true
          · rw [if_pos h3]
            omega
          · rw [if_neg h3]

theorem nonhtStep_cases (sr esr : Option (List Nat)) (rssi : Int) (acc rate : Nat) :
    nonhtStep sr esr rssi acc rate = acc ∨
      (nonhtStep sr esr rssi acc rate = rate ∧ eligible sr esr rssi rate = true) := by
  unfold nonhtStep
  by_cases h : acc ≥ rate
  · rw [if_pos h]
    exact Or.inl rfl
  · rw [if_neg h]
    cases hf : rate_rssi_map.find? (fun p => p.2 == rate) with
    | none => exact Or.inl rfl
    | some p =>
        dsimp only
        by_cases h2 : rssi < p.1
        · rw [if_pos h2]
          exact Or.inl rfl
        · rw [if_neg h2]
          by_cases h3 : (peer_supports_rate sr rate || peer_supports_rate esr rate) = true
          · rw [if_pos h3]
            refine Or.inr ⟨rfl, ?_⟩
            unfold eligible
            rw [hf]
            simp only [Bool.and_eq_true, decide_eq_true_eq]
            exact ⟨by omega, h3⟩
          · rw [if_neg h3]
            exact Or.inl rfl

theorem nonhtStep_max (sr esr : Option (List Nat)) (rssi : Int) (acc rate : Nat)
    (he : eligible sr esr rssi rate = true) :
    rate ≤ nonhtStep sr esr rssi acc rate := by
  unfold nonhtStep
  unfold eligible at he
  by_cases h : acc ≥ rate
  · rw [if_pos h]
    omega
  · rw [if_neg h]
    cases hf : rate_rssi_map.find? (fun p => p.2 == rate) with
    | none => rw [hf] at he; simp at he
    | some p =>
        rw [hf] at he
        simp only [Bool.and_eq_true, decide_eq_true_eq] at he
        have h2 : ¬(rssi < p.1) := by omega
        dsimp only
        rw [if_neg h2, if_pos he.2]

theorem nonht_fold_spec (sr esr : Option (List Nat)) (rssi : Int)
    (l : List Nat) : ∀ acc,
    let m := l.foldl (nonhtStep sr esr rssi) acc
    (m = acc ∨ (m ∈ l ∧ eligible sr esr rssi m = true)) ∧ acc ≤ m ∧
      ∀ r ∈ l, eligible sr esr rssi r = true → r ≤ m := by
  induction l with
  | nil =>
      intro acc
      exact ⟨Or.inl rfl, Nat.le_refl acc, by intro r hr; cases hr⟩
  | cons rate l ih =>
      intro acc
      simp only [List.foldl_cons]
      obtain ⟨hmem, hge, hmax⟩ := ih (nonhtStep sr esr rssi acc rate)
      refine ⟨?_, ?_, ?_⟩
      · rcases hmem with h | h
        · rw [h]
          rcases nonhtStep_cases sr esr rssi acc rate with h2 | h2
          · exact Or.inl h2
          · rw [h2.1]
            exact Or.inr ⟨List.mem_cons_self _ _, h2.2⟩
        · exact Or.inr ⟨List.mem_cons_of_mem _ h.1, h.2⟩
      · exact Nat.le_trans (nonhtStep_ge sr esr rssi acc rate) hge
      · intro r hr helig
        rcases List.mem_cons.mp hr with h | h
        · subst h
          exact Nat.le_trans (nonhtStep_max sr esr rssi acc r helig) hge
        · exact hmax r h helig

/-- Claim C5 (corrected): when `band_estimate_nonht_rate` returns a rate `r`,
then `r = m * 500000` for the largest band rate `m` that appears in
`rate_rssi_map` with `rssi` at or above its threshold and is advertised by the
peer in either rates IE with the basic-rate bit masked; `500000` divides `r`
(the frozen claim's direction, `r` divides `500000`, fails); and it fails
exactly when no eligible rate exists. -/
theorem band_estimate_nonht_rate_spec (band : BandRec)
    (sr esr : Option (List Nat)) (rssi : Int) (r : Nat)
    (h : band_estimate_nonht_rate band sr esr rssi = some r) :
    ∃ m, r = m * 500000 ∧ 500000 ∣ r ∧ m ∈ band.supported_rates ∧
      eligible sr esr rssi m = true ∧
      ∀ x ∈ band.supported_rates, eligible sr esr rssi x = true → x ≤ m := by
  unfold band_estimate_nonht_rate at h
  by_cases hie : sr = none ∧ esr = none
  · simp [hie] at h
  · simp only [if_neg hie] at h
    obtain ⟨hmem, _, hmax⟩ :=
      nonht_fold_spec sr esr rssi band.supported_rates.reverse 0
    set m := band.supported_rates.reverse.foldl (nonhtStep sr esr rssi) 0 with hm
    by_cases hz : m = 0
    · simp [hz] at h
    · simp only [if_neg hz, Option.some.injEq] at h
      rcases hmem with h0 | ⟨hin, helig⟩
      · exact absurd h0 hz
      · refine ⟨m, h.symm, ⟨m, by omega⟩, List.mem_reverse.mp hin, helig, ?_⟩
        intro x hx he
        exact hmax x (List.mem_reverse.mpr hx) he

/-- Witness for `band_estimate_nonht_rate_spec`: band advertising rate 108
(54 Mbit/s), peer advertising the same, RSSI -60 dBm. -/
theorem band_estimate_nonht_rate_spec_witness :
    band_estimate_nonht_rate ⟨[2, 4, 108]⟩ (some [1, 3, 2, 4, 108]) none (-60) =
      some 54000000 ∧
    ∃ m, 54000000 = m * 500000 ∧ 500000 ∣ 54000000 ∧ m ∈ [2, 4, 108] ∧
      eligible (some [1, 3, 2, 4, 108]) none (-60) m = true ∧
      ∀ x ∈ [2, 4, 108], eligible (some [1, 3, 2, 4, 108]) none (-60) x = true → x ≤ m :=
  ⟨by decide, band_estimate_nonht_rate_spec ⟨[2, 4, 108]⟩ _ none (-60) 54000000 (by decide)⟩

/-- Claim C5, counterexample to the claim as frozen: with band rate 2, a peer
advertising it and RSSI -90 the function returns `r = 1000000`, and `r` does
not divide `500000` (it is the other way around: `500000` divides `r`). -/
theorem band_estimate_nonht_rate_divides_counterexample :
    band_estimate_nonht_rate ⟨[2]⟩ (some [1, 1, 2]) none (-90) = some 1000000 ∧
    ¬ (1000000 ∣ 500000) := by
  constructor
  · decide
  · omega

end Band

namespace DPP

/-- Claim C9 (confirmed): over any ECC group in which the curve order `q`
annihilates the generator, if `(bI, BI)` is a valid key pair (`BI = bI • G`)
and `BR = bR • G`, `PR = pR • G` are valid scalar/point pairs on the same
curve, then `dpp_derive_li BR PR bI = dpp_derive_lr q bR pR BI`. -/
theorem dpp_derive_li_eq_lr {M : Type} [AddCommGroup M] (G : M)
    (q bI bR pR : Nat) (BI BR PR : M)
    (hord : q • G = 0) (hBI : BI = bI • G) (hBR : BR = bR • G)
    (hPR : PR = pR • G) :
    dpp_derive_li BR PR bI = dpp_derive_lr q bR pR BI := by
  subst hBI hBR hPR
  unfold dpp_derive_li dpp_derive_lr
  rw [← add_nsmul, ← mul_nsmul', ← mul_nsmul']
  have hk : bI * (bR + pR) = (bR + pR) % q * bI + bI * ((bR + pR) / q) * q := by
    conv_lhs => rw [← Nat.mod_add_div (bR + pR) q]
    ring
  rw [hk, add_nsmul, mul_nsmul' G (bI * ((bR + pR) / q)) q, hord, smul_zero,
    add_zero]

/-- Witness for `dpp_derive_li_eq_lr`: the additive group `ZMod 5` with
generator 1 and order 5, `bI = 2`, `bR = 3`, `pR = 4`. -/
theorem dpp_derive_li_eq_lr_witness :
    (5 : Nat) • (1 : ZMod 5) = 0 ∧
    dpp_derive_li ((3 : Nat) • (1 : ZMod 5)) ((4 : Nat) • (1 : ZMod 5)) 2 =
      dpp_derive_lr 5 3 4 ((2 : Nat) • (1 : ZMod 5)) :=
  ⟨by decide,
   dpp_derive_li_eq_lr (1 : ZMod 5) 5 2 3 4 _ _ _ (by decide) rfl rfl rfl⟩

end DPP

namespace NL

theorem upd_self {α : Type} (f : Nat → α) (i : Nat) (v : α) : upd f i v i = v := by
  simp [upd]

theorem upd_ne {α : Type} (f : Nat → α) (i j : Nat) (v : α) (h : j ≠ i) :
    upd f i v j = f j := by
  simp [upd, h]

theorem findReq_getD (reqs : List NLAttr) (t : NLAttr) (i : Nat)
    (h : findReq reqs t = some i) :
    reqs.getD i (.other 0) = t ∧ i < reqs.length := by
  induction reqs generalizing i with
  | nil => cases h
  | cons r rest ih =>
      unfold findReq at h
      by_cases hr : r = t
      · rw [if_pos hr] at h
        cases h
        exact ⟨hr, Nat.succ_pos _⟩
      · rw [if_neg hr] at h
        rcases Option.map_eq_some'.mp h with ⟨j, hj, hij⟩
        subst hij
        obtain ⟨h1, h2⟩ := ih j hj
        exact ⟨h1, Nat.succ_lt_succ h2⟩

theorem findReq_mem (reqs : List NLAttr) (t : NLAttr) (i : Nat)
    (h : findReq reqs t = some i) : t ∈ reqs := by
  induction reqs generalizing i with
  | nil => cases h
  | cons r rest ih =>
      unfold findReq at h
      by_cases hr : r = t
      · subst hr
        exact List.mem_cons_self _ _
      · rw [if_neg hr] at h
        rcases Option.map_eq_some'.mp h with ⟨j, hj, _⟩
        exact List.mem_cons_of_mem _ (ih j hj)

theorem mem_findReq_isSome (reqs : List NLAttr) (t : NLAttr) (h : t ∈ reqs) :
    (findReq reqs t).isSome = true := by
  induction reqs with
  | nil => cases h
  | cons r rest ih =>
      unfold findReq
      by_cases hr : r = t
      · rw [if_pos hr]; rfl
      · rw [if_neg hr]
        rcases List.mem_cons.mp h with h1 | h1
        · exact absurd h1.symm hr
        · rcases Option.isSome_iff_exists.mp (ih h1) with ⟨j, hj⟩
          rw [hj]; rfl

theorem findReq_eq_of_same_idx (reqs : List NLAttr) (t u : NLAttr) (i : Nat)
    (ht : findReq reqs t = some i) (hu : findReq reqs u = some i) : t = u := by
  obtain ⟨h1, _⟩ := findReq_getD reqs t i ht
  obtain ⟨h2, _⟩ := findReq_getD reqs u i hu
  rw [← h1, ← h2]

theorem decodeOfType_handler (t : NLAttr) (p : List Nat)
    (h : decodeOfType t p ≠ none) :
    ∃ hdl, handler_for_type t = some hdl ∧ decodeAttr hdl p ≠ none := by
  unfold decodeOfType at h
  cases hh : handler_for_type t with
  | none => rw [hh] at h; exact absurd rfl h
  | some hdl => rw [hh] at h; exact ⟨hdl, rfl, h⟩

theorem nlScan_ealready (reqs : List NLAttr) (msg : List (NLAttr × List Nat)) :
    ∀ st : ParseState,
    (∀ tp ∈ msg, (findReq reqs tp.1).isSome = true →
        decodeOfType tp.1 tp.2 ≠ none) →
    ((∃ tp ∈ msg, ∃ i, findReq reqs tp.1 = some i ∧ st.present i = true) ∨
      ∃ t ∈ reqs, 2 ≤ (msg.filter (fun tp => tp.1 == t)).length) →
    (nlScan reqs st msg).1 = some .ealready := by
  induction msg with
  | nil =>
      intro st _ hw
      rcases hw with ⟨tp, htp, _⟩ | ⟨t, _, hcnt⟩
      · cases htp
      · simp at hcnt
  | cons hd rest ih =>
      intro st hdec hw
      obtain ⟨t0, p0⟩ := hd
      unfold nlScan
      cases hf : findReq reqs t0 with
      | none =>
          dsimp only
          apply ih st
          · intro tp htp hs
            exact hdec tp (List.mem_cons_of_mem _ htp) hs
          · rcases hw with ⟨tp, htp, i, hi, hp⟩ | ⟨t, htm, hcnt⟩
            · left
              rcases List.mem_cons.mp htp with heq | hmem
              · subst heq; rw [hf] at hi; cases hi
              · exact ⟨tp, hmem, i, hi, hp⟩
            · right
              refine ⟨t, htm, ?_⟩
              have hne : ((t0, p0).1 == t) = false := by
                show (t0 == t) = false
                rcases Option.isSome_iff_exists.mp
                  (mem_findReq_isSome reqs t htm) with ⟨j, hj⟩
                by_cases he : t0 = t
                · rw [he] at hf; rw [hf] at hj; cases hj
                · simp [he]
              rw [List.filter_cons] at hcnt
              simp only [hne] at hcnt
              exact hcnt
      | some idx =>
          dsimp only
          by_cases hp : st.present idx = true
          · rw [if_pos hp]
          · rw [if_neg hp]
            have hd0 : decodeOfType t0 p0 ≠ none := by
              apply hdec (t0, p0) (List.mem_cons_self _ _)
              rw [hf]; rfl
            rcases decodeOfType_handler t0 p0 hd0 with ⟨hdl, hh, hdd⟩
            rw [hh]
            dsimp only
            cases hda : decodeAttr hdl p0 with
            | none => exact absurd hda hdd
            | some w =>
                dsimp only
                apply ih
                · intro tp htp hs
                  exact hdec tp (List.mem_cons_of_mem _ htp) hs
                · rcases hw with ⟨tp, htp, i, hi, hpi⟩ | ⟨t, htm, hcnt⟩
                  · left
                    rcases List.mem_cons.mp htp with heq | hmem
                    · subst heq
                      rw [hf] at hi
                      cases hi
                      exact absurd hpi hp
                    · refine ⟨tp, hmem, i, hi, ?_⟩
                      show upd st.present idx true i = true
                      by_cases hij : i = idx
                      · subst hij; exact (upd_self _ _ _)
                      · rw [upd_ne _ _ _ _ hij]; exact hpi
                  · by_cases he : t = t0
                    · left
                      rw [List.filter_cons] at hcnt
                      have heq : ((t0, p0).1 == t) = true := by
                        show (t0 == t) = true
                        rw [he]
                        simp
                      simp only [heq, if_true] at hcnt
                      have hlen : 0 < (rest.filter (fun tp => tp.1 == t)).length := by
                        simp only [List.length_cons] at hcnt
                        omega
                      have hne : rest.filter (fun tp => tp.1 == t) ≠ [] := by
                        intro hnil; rw [hnil] at hlen; simp at hlen
                      rcases List.exists_mem_of_ne_nil _ hne with ⟨tp, htp⟩
                      rcases List.mem_filter.mp htp with ⟨hmem, hcond⟩
                      have hteq : tp.1 = t := eq_of_beq hcond
                      refine ⟨tp, hmem, idx, ?_, ?_⟩
                      · rw [hteq, he, hf]
                      · show upd st.present idx true idx = true
                        exact upd_self _ _ _
                    · right
                      refine ⟨t, htm, ?_⟩
                      rw [List.filter_cons] at hcnt
                      have hne : ((t0, p0).1 == t) = false := by
                        show (t0 == t) = false
                        simp only [beq_eq_false_iff_ne, ne_eq]
                        exact fun hh2 => he hh2.symm
                      simp only [hne] at hcnt
                      exact hcnt

theorem nlScan_ok (reqs : List NLAttr) (msg : List (NLAttr × List Nat)) :
    ∀ st : ParseState,
    (∀ tp ∈ msg, (findReq reqs tp.1).isSome = true →
        decodeOfType tp.1 tp.2 ≠ none) →
    (msg.map Prod.fst).Nodup →
    (∀ tp ∈ msg, ∀ i, findReq reqs tp.1 = some i → st.present i = false) →
    ∃ st2, nlScan reqs st msg = (none, st2) ∧
      (∀ i, st2.present i = true ↔
        (st.present i = true ∨ ∃ tp ∈ msg, findReq reqs tp.1 = some i)) ∧
      (∀ i, st2.store i = st.store i ∨
        ∃ tp ∈ msg, findReq reqs tp.1 = some i ∧
          ∃ v, decodeOfType tp.1 tp.2 = some (some v) ∧ st2.store i = some v) := by
  induction msg with
  | nil =>
      intro st _ _ _
      refine ⟨st, rfl, ?_, ?_⟩
      · intro i
        constructor
        · intro h; exact Or.inl h
        · rintro (h | ⟨tp, htp, _⟩)
          · exact h
          · cases htp
      · intro i; exact Or.inl rfl
  | cons hd rest ih =>
      intro st hdec hnodup hfresh
      obtain ⟨t0, p0⟩ := hd
      rw [List.map_cons, List.nodup_cons] at hnodup
      obtain ⟨hnotin, hnodup2⟩ := hnodup
      unfold nlScan
      cases hf : findReq reqs t0 with
      | none =>
          dsimp only
          rcases ih st
            (fun tp htp => hdec tp (List.mem_cons_of_mem _ htp))
            hnodup2
            (fun tp htp => hfresh tp (List.mem_cons_of_mem _ htp))
            with ⟨st2, hrun, hpres, hsto⟩
          refine ⟨st2, hrun, ?_, ?_⟩
          · intro i
            rw [hpres i]
            constructor
            · rintro (h | ⟨tp, htp, hi⟩)
              · exact Or.inl h
              · exact Or.inr ⟨tp, List.mem_cons_of_mem _ htp, hi⟩
            · rintro (h | ⟨tp, htp, hi⟩)
              · exact Or.inl h
              · rcases List.mem_cons.mp htp with heq | hmem
                · subst heq; rw [hf] at hi; cases hi
                · exact Or.inr ⟨tp, hmem, hi⟩
          · intro i
            rcases hsto i with h | ⟨tp, htp, hi, v, hv, hs⟩
            · exact Or.inl h
            · exact Or.inr ⟨tp, List.mem_cons_of_mem _ htp, hi, v, hv, hs⟩
      | some idx =>
          dsimp only
          have hp : st.present idx = false :=
            hfresh (t0, p0) (List.mem_cons_self _ _) idx hf
          rw [if_neg (by rw [hp]; exact Bool.false_ne_true)]
          have hd0 : decodeOfType t0 p0 ≠ none := by
            apply hdec (t0, p0) (List.mem_cons_self _ _)
            rw [hf]; rfl
          rcases decodeOfType_handler t0 p0 hd0 with ⟨hdl, hh, hdd⟩
          rw [hh]
          dsimp only
          cases hda : decodeAttr hdl p0 with
          | none => exact absurd hda hdd
          | some w =>
              dsimp only
              have hfresh2 : ∀ tp ∈ rest, ∀ i, findReq reqs tp.1 = some i →
                  (scanWrite st idx w).present i = false := by
                intro tp htp i hi
                have hne : tp.1 ≠ t0 := by
                  intro he
                  exact hnotin (List.mem_map.mpr ⟨tp, htp, he⟩)
                have hineq : i ≠ idx := by
                  intro he
                  subst he
                  exact hne (findReq_eq_of_same_idx reqs tp.1 t0 i hi hf)
                show upd st.present idx true i = false
                rw [upd_ne _ _ _ _ hineq]
                exact hfresh tp (List.mem_cons_of_mem _ htp) i hi
              rcases ih (scanWrite st idx w)
                (fun tp htp => hdec tp (List.mem_cons_of_mem _ htp))
                hnodup2 hfresh2 with ⟨st2, hrun, hpres, hsto⟩
              refine ⟨st2, hrun, ?_, ?_⟩
              · intro i
                rw [hpres i]
                constructor
                · rintro (h1 | ⟨tp, htp, hi⟩)
                  · by_cases hij : i = idx
                    · subst hij
                      exact Or.inr ⟨(t0, p0), List.mem_cons_self _ _, hf⟩
                    · left
                      have h2 : upd st.present idx true i = true := h1
                      rw [upd_ne _ _ _ _ hij] at h2
                      exact h2
                  · exact Or.inr ⟨tp, List.mem_cons_of_mem _ htp, hi⟩
                · rintro (h1 | ⟨tp, htp, hi⟩)
                  · left
                    show upd st.present idx true i = true
                    by_cases hij : i = idx
                    · subst hij; exact upd_self _ _ _
                    · rw [upd_ne _ _ _ _ hij]; exact h1
                  · rcases List.mem_cons.mp htp with heq | hmem
                    · subst heq
                      rw [hf] at hi
                      cases hi
                      left
                      exact upd_self _ _ _
                    · exact Or.inr ⟨tp, hmem, hi⟩
              · intro i
                rcases hsto i with h1 | ⟨tp, htp, hi, v, hv, hs⟩
                · cases hw0 : w with
                  | none =>
                      subst hw0
                      exact Or.inl h1
                  | some v =>
                      subst hw0
                      by_cases hij : i = idx
                      · subst hij
                        right
                        refine ⟨(t0, p0), List.mem_cons_self _ _, hf, v, ?_, ?_⟩
                        · unfold decodeOfType
                          rw [hh]
                          exact hda
                        · rw [h1]
                          exact upd_self _ _ _
                      · left
                        rw [h1]
                        exact upd_ne _ _ _ _ hij
                · exact Or.inr ⟨tp, List.mem_cons_of_mem _ htp, hi, v, hv, hs⟩

end NL

namespace NL

theorem nlScan_einval (reqs : List NLAttr) (msg : List (NLAttr × List Nat)) :
    ∀ st : ParseState,
    (∀ tp ∈ msg, (findReq reqs tp.1).isSome = true →
        (handler_for_type tp.1).isSome = true) →
    (msg.map Prod.fst).Nodup →
    (∀ tp ∈ msg, ∀ i, findReq reqs tp.1 = some i → st.present i = false) →
    (∃ tp ∈ msg, (findReq reqs tp.1).isSome = true ∧
        decodeOfType tp.1 tp.2 = none) →
    (nlScan reqs st msg).1 = some .einval := by
  induction msg with
  | nil =>
      intro st _ _ _ hbad
      rcases hbad with ⟨tp, htp, _⟩
      cases htp
  | cons hd rest ih =>
      intro st hh hnodup hfresh hbad
      obtain ⟨t0, p0⟩ := hd
      rw [List.map_cons, List.nodup_cons] at hnodup
      obtain ⟨hnotin, hnodup2⟩ := hnodup
      unfold nlScan
      cases hf : findReq reqs t0 with
      | none =>
          dsimp only
          apply ih st (fun tp htp => hh tp (List.mem_cons_of_mem _ htp)) hnodup2
            (fun tp htp => hfresh tp (List.mem_cons_of_mem _ htp))
          rcases hbad with ⟨tp, htp, hs, hdn⟩
          rcases List.mem_cons.mp htp with heq | hmem
          · subst heq
            rw [hf] at hs
            cases hs
          · exact ⟨tp, hmem, hs, hdn⟩
      | some idx =>
          dsimp only
          have hp : st.present idx = false :=
            hfresh (t0, p0) (List.mem_cons_self _ _) idx hf
          rw [if_neg (by rw [hp]; exact Bool.false_ne_true)]
          have hhs : (handler_for_type t0).isSome = true := by
            apply hh (t0, p0) (List.mem_cons_self _ _)
            rw [hf]; rfl
          rcases Option.isSome_iff_exists.mp hhs with ⟨hdl, hhdl⟩
          rw [hhdl]
          dsimp only
          cases hda : decodeAttr hdl p0 with
          | none => rfl
          | some w =>
              dsimp only
              have hfresh2 : ∀ tp ∈ rest, ∀ i, findReq reqs tp.1 = some i →
                  (scanWrite st idx w).present i = false := by
                intro tp htp i hi
                have hne : tp.1 ≠ t0 := by
                  intro he
                  exact hnotin (List.mem_map.mpr ⟨tp, htp, he⟩)
                have hineq : i ≠ idx := by
                  intro he
                  subst he
                  exact hne (findReq_eq_of_same_idx reqs tp.1 t0 i hi hf)
                show upd st.present idx true i = false
                rw [upd_ne _ _ _ _ hineq]
                exact hfresh tp (List.mem_cons_of_mem _ htp) i hi
              apply ih (scanWrite st idx w)
                (fun tp htp => hh tp (List.mem_cons_of_mem _ htp))
                hnodup2 hfresh2
              rcases hbad with ⟨tp, htp, hs, hdn⟩
              rcases List.mem_cons.mp htp with heq | hmem
              · subst heq
                unfold decodeOfType at hdn
                rw [hhdl] at hdn
                dsimp only at hdn
                rw [hda] at hdn
                cases hdn
              · exact ⟨tp, hmem, hs, hdn⟩

theorem nlScan_no_enosys (reqs : List NLAttr)
    (hreqs : ∀ t ∈ reqs, (handler_for_type t).isSome = true)
    (msg : List (NLAttr × List Nat)) :
    ∀ st : ParseState, (nlScan reqs st msg).1 ≠ some .enosys := by
  induction msg with
  | nil => intro st h; cases h
  | cons hd rest ih =>
      intro st
      obtain ⟨t0, p0⟩ := hd
      unfold nlScan
      cases hf : findReq reqs t0 with
      | none => exact ih st
      | some idx =>
          dsimp only
          by_cases hp : st.present idx = true
          · rw [if_pos hp]
            intro h; cases h
          · rw [if_neg hp]
            have hhs := hreqs t0 (findReq_mem reqs t0 idx hf)
            rcases Option.isSome_iff_exists.mp hhs with ⟨hdl, hhdl⟩
            rw [hhdl]
            dsimp only
            cases decodeAttr hdl p0 with
            | none => intro h; cases h
            | some w => exact ih _

theorem nlScan_store_sub (reqs : List NLAttr) (msg : List (NLAttr × List Nat)) :
    ∀ (st : ParseState) (i : Nat) (v : AttrVal),
    (nlScan reqs st msg).2.store i = some v →
    st.store i = some v ∨
      ∃ tp ∈ msg, findReq reqs tp.1 = some i ∧
        decodeOfType tp.1 tp.2 = some (some v) := by
  induction msg with
  | nil => intro st i v h; exact Or.inl h
  | cons hd rest ih =>
      intro st i v h
      obtain ⟨t0, p0⟩ := hd
      unfold nlScan at h
      cases hf : findReq reqs t0 with
      | none =>
          rw [hf] at h
          dsimp only at h
          rcases ih st i v h with h1 | ⟨tp, hm, hi, hd2⟩
          · exact Or.inl h1
          · exact Or.inr ⟨tp, List.mem_cons_of_mem _ hm, hi, hd2⟩
      | some idx =>
          rw [hf] at h
          dsimp only at h
          by_cases hp : st.present idx = true
          · rw [if_pos hp] at h
            exact Or.inl h
          · rw [if_neg hp] at h
            cases hhdl : handler_for_type t0 with
            | none =>
                rw [hhdl] at h
                dsimp only at h
                exact Or.inl h
            | some hdl =>
                rw [hhdl] at h
                dsimp only at h
                cases hda : decodeAttr hdl p0 with
                | none =>
                    rw [hda] at h
                    dsimp only at h
                    exact Or.inl h
                | some w =>
                    rw [hda] at h
                    dsimp only at h
                    rcases ih _ i v h with h1 | ⟨tp, hm, hi, hd2⟩
                    · cases w with
                      | none => exact Or.inl h1
                      | some v0 =>
                          by_cases hij : i = idx
                          · subst hij
                            have h2 : upd st.store i (some v0) i = some v := h1
                            rw [upd_self] at h2
                            right
                            refine ⟨(t0, p0), List.mem_cons_self _ _, hf, ?_⟩
                            unfold decodeOfType
                            rw [hhdl]
                            dsimp only
                            rw [hda, h2]
                          · left
                            have h2 : upd st.store idx (some v0) i = some v := h1
                            rw [upd_ne _ _ _ _ hij] at h2
                            exact h2
                    · exact Or.inr ⟨tp, List.mem_cons_of_mem _ hm, hi, hd2⟩

theorem nlFinal_err (rem : List NLAttr) :
    ∀ (i : Nat) (st : ParseState),
    (nlFinal rem i st).1 = none ∨ (nlFinal rem i st).1 = some .enoent := by
  induction rem with
  | nil => intro i st; exact Or.inl rfl
  | cons t rest ih =>
      intro i st
      unfold nlFinal
      by_cases hfl : (handler_for_type t == some AttrHandler.hFlag) = true
      · rw [if_pos hfl]
        exact ih _ _
      · rw [if_neg hfl]
        by_cases hp : st.present i = true
        · rw [if_pos hp]
          exact ih _ _
        · rw [if_neg hp]
          exact Or.inr rfl

theorem nlFinal_store_sub (rem : List NLAttr) :
    ∀ (i : Nat) (st : ParseState) (k : Nat) (v : AttrVal),
    (nlFinal rem i st).2.store k = some v →
    st.store k = some v ∨ ∃ b, v = .vFlag b := by
  induction rem with
  | nil => intro i st k v h; exact Or.inl h
  | cons t rest ih =>
      intro i st k v h
      unfold nlFinal at h
      by_cases hfl : (handler_for_type t == some AttrHandler.hFlag) = true
      · rw [if_pos hfl] at h
        rcases ih _ _ k v h with h1 | h1
        · by_cases hk : k = i
          · subst hk
            have h2 : upd st.store k (some (.vFlag (st.present k))) k = some v := h1
            rw [upd_self] at h2
            right
            exact ⟨st.present k, (Option.some.injEq _ _ ▸ h2).symm⟩
          · left
            have h2 : upd st.store i (some (.vFlag (st.present i))) k = some v := h1
            rw [upd_ne _ _ _ _ hk] at h2
            exact h2
        · exact Or.inr h1
      · rw [if_neg hfl] at h
        by_cases hp : st.present i = true
        · rw [if_pos hp] at h
          exact ih _ _ k v h
        · rw [if_neg hp] at h
          exact Or.inl h

theorem nlFinal_enoent (rem : List NLAttr) :
    ∀ (i : Nat) (st : ParseState),
    (∃ j, j < rem.length ∧
      handler_for_type (rem.getD j (.other 0)) ≠ some .hFlag ∧
      st.present (i + j) = false) →
    (nlFinal rem i st).1 = some .enoent := by
  induction rem with
  | nil =>
      intro i st h
      rcases h with ⟨j, hj, _⟩
      simp at hj
  | cons t rest ih =>
      intro i st h
      rcases h with ⟨j, hj, hnf, hp⟩
      unfold nlFinal
      by_cases hfl : (handler_for_type t == some AttrHandler.hFlag) = true
      · rw [if_pos hfl]
        apply ih
        cases j with
        | zero =>
            exact absurd (eq_of_beq hfl) (by simpa using hnf)
        | succ j0 =>
            refine ⟨j0, by simpa using hj, by simpa using hnf, ?_⟩
            show st.present (i + 1 + j0) = false
            have : i + 1 + j0 = i + (j0 + 1) := by omega
            rw [this]
            exact hp
      · rw [if_neg hfl]
        by_cases hpr : st.present i = true
        · rw [if_pos hpr]
          apply ih
          cases j with
          | zero =>
              rw [Nat.add_zero] at hp
              rw [hp] at hpr
              cases hpr
          | succ j0 =>
              refine ⟨j0, by simpa using hj, by simpa using hnf, ?_⟩
              have : i + 1 + j0 = i + (j0 + 1) := by omega
              rw [this]
              exact hp
        · rw [if_neg hpr]

theorem nlFinal_none (rem : List NLAttr) :
    ∀ (i : Nat) (st : ParseState),
    (∀ j, j < rem.length →
      handler_for_type (rem.getD j (.other 0)) = some .hFlag ∨
      st.present (i + j) = true) →
    ∃ st2, nlFinal rem i st = (none, st2) ∧ st2.present = st.present ∧
      (∀ k, k < i → st2.store k = st.store k) ∧
      (∀ j, j < rem.length →
        handler_for_type (rem.getD j (.other 0)) = some .hFlag →
        st2.store (i + j) = some (.vFlag (st.present (i + j)))) := by
  induction rem with
  | nil =>
      intro i st _
      exact ⟨st, rfl, rfl, fun k _ => rfl, fun j hj => by simp at hj⟩
  | cons t rest ih =>
      intro i st hall
      unfold nlFinal
      by_cases hfl : (handler_for_type t == some AttrHandler.hFlag) = true
      · rw [if_pos hfl]
        have hall2 : ∀ j, j < rest.length →
            handler_for_type (rest.getD j (.other 0)) = some .hFlag ∨
            (⟨st.present, upd st.store i (some (.vFlag (st.present i)))⟩ :
              ParseState).present (i + 1 + j) = true := by
          intro j hj
          have := hall (j + 1) (by simpa using Nat.succ_lt_succ hj)
          rcases this with h1 | h1
          · left; simpa using h1
          · right
            show st.present (i + 1 + j) = true
            have he : i + 1 + j = i + (j + 1) := by omega
            rw [he]
            exact h1
        rcases ih (i + 1) _ hall2 with ⟨st2, hrun, hpres, hlow, hflags⟩
        refine ⟨st2, hrun, hpres, ?_, ?_⟩
        · intro k hk
          have h1 := hlow k (by omega)
          rw [h1]
          show upd st.store i (some (.vFlag (st.present i))) k = st.store k
          exact upd_ne _ _ _ _ (by omega)
        · intro j hj hfj
          cases j with
          | zero =>
              rw [Nat.add_zero]
              have h1 := hlow i (by omega)
              rw [h1]
              show upd st.store i (some (.vFlag (st.present i))) i =
                some (.vFlag (st.present i))
              exact upd_self _ _ _
          | succ j0 =>
              have h1 := hflags j0 (by simpa using hj) (by simpa using hfj)
              have he : i + 1 + j0 = i + (j0 + 1) := by omega
              rw [he] at h1
              rw [h1]
      · rw [if_neg hfl]
        have hp : st.present i = true := by
          have := hall 0 (by simp)
          rcases this with h1 | h1
          · exact absurd h1 (by simpa using hfl)
          · rw [Nat.add_zero] at h1
            exact h1
        rw [if_pos hp]
        have hall2 : ∀ j, j < rest.length →
            handler_for_type (rest.getD j (.other 0)) = some .hFlag ∨
            st.present (i + 1 + j) = true := by
          intro j hj
          have := hall (j + 1) (by simpa using Nat.succ_lt_succ hj)
          rcases this with h1 | h1
          · left; simpa using h1
          · right
            have he : i + 1 + j = i + (j + 1) := by omega
            rw [he]
            exact h1
        rcases ih (i + 1) st hall2 with ⟨st2, hrun, hpres, hlow, hflags⟩
        refine ⟨st2, hrun, hpres, fun k hk => hlow k (by omega), ?_⟩
        intro j hj hfj
        cases j with
        | zero =>
            simp only [List.getD_cons_zero] at hfj
            exact absurd (by rw [hfj]; rfl) hfl
        | succ j0 =>
            have h1 := hflags j0 (by simpa using hj) (by simpa using hfj)
            have he : i + 1 + j0 = i + (j0 + 1) := by omega
            rw [he] at h1
            exact h1

end NL

namespace NL

theorem parse_pre_false (reqs : List NLAttr)
    (hho : ∀ t ∈ reqs, (handler_for_type t).isSome = true) :
    reqs.any (fun t => (handler_for_type t).isNone) = false := by
  rw [List.any_eq_false]
  intro t ht hbad
  have h := hho t ht
  cases hh : handler_for_type t with
  | none => rw [hh] at h; cases h
  | some a => rw [hh] at hbad; cases hbad

theorem pre_false_handlers (reqs : List NLAttr)
    (h : reqs.any (fun t => (handler_for_type t).isNone) = false) :
    ∀ t ∈ reqs, (handler_for_type t).isSome = true := by
  intro t ht
  rw [List.any_eq_false] at h
  have h2 := h t ht
  cases hh : handler_for_type t with
  | none =>
      rw [hh] at h2
      exact absurd rfl h2
  | some a => rfl

/-- Claim C6 (confirmed): error behavior of `nl80211_parse_attrs`.
1. A requested id with no decoder in the schema yields `-ENOSYS`, whatever the
   message (decided while building the entries, before the scan).
2. A requested id occurring twice in the message yields `-EALREADY` (when
   every requested attribute present decodes, isolating the duplicate).
3. A requested non-flag id absent from a duplicate-free decodable message
   yields `-ENOENT`.
4. A decoder rejecting its payload in a duplicate-free message yields
   `-EINVAL`.
5. A flag-typed requested id absent from the message does not fail: when all
   other entries are covered, parsing succeeds and the flag output receives
   `false`.
6. Decoder rejections include ifindex = 0 and a wrong-length MAC. -/
theorem nl80211_parse_attrs_error_spec :
    (∀ (msg : List (NLAttr × List Nat)) (reqs : List NLAttr),
        (∃ t ∈ reqs, handler_for_type t = none) →
        nl80211_parse_attrs msg reqs = (some .enosys, initState)) ∧
    (∀ (msg : List (NLAttr × List Nat)) (reqs : List NLAttr),
        (∀ t ∈ reqs, (handler_for_type t).isSome = true) →
        (∀ tp ∈ msg, (findReq reqs tp.1).isSome = true →
          decodeOfType tp.1 tp.2 ≠ none) →
        (∃ t ∈ reqs, 2 ≤ (msg.filter (fun tp => tp.1 == t)).length) →
        (nl80211_parse_attrs msg reqs).1 = some .ealready) ∧
    (∀ (msg : List (NLAttr × List Nat)) (reqs : List NLAttr),
        (∀ t ∈ reqs, (handler_for_type t).isSome = true) →
        (∀ tp ∈ msg, (findReq reqs tp.1).isSome = true →
          decodeOfType tp.1 tp.2 ≠ none) →
        (msg.map Prod.fst).Nodup →
        (∃ t ∈ reqs, handler_for_type t ≠ some .hFlag ∧ ∀ tp ∈ msg, tp.1 ≠ t) →
        (nl80211_parse_attrs msg reqs).1 = some .enoent) ∧
    (∀ (msg : List (NLAttr × List Nat)) (reqs : List NLAttr),
        (∀ t ∈ reqs, (handler_for_type t).isSome = true) →
        (msg.map Prod.fst).Nodup →
        (∃ tp ∈ msg, (findReq reqs tp.1).isSome = true ∧
          decodeOfType tp.1 tp.2 = none) →
        (nl80211_parse_attrs msg reqs).1 = some .einval) ∧
    (∀ (msg : List (NLAttr × List Nat)) (reqs : List NLAttr),
        (∀ t ∈ reqs, (handler_for_type t).isSome = true) →
        (∀ tp ∈ msg, (findReq reqs tp.1).isSome = true →
          decodeOfType tp.1 tp.2 ≠ none) →
        (msg.map Prod.fst).Nodup →
        (∀ j, j < reqs.length →
          handler_for_type (reqs.getD j (.other 0)) = some .hFlag ∨
          ∃ tp ∈ msg, findReq reqs tp.1 = some j) →
        ∀ t i, findReq reqs t = some i → handler_for_type t = some .hFlag →
          (∀ tp ∈ msg, tp.1 ≠ t) →
          (nl80211_parse_attrs msg reqs).1 = none ∧
          (nl80211_parse_attrs msg reqs).2.store i = some (.vFlag false)) ∧
    (decodeAttr .hIfindex [0, 0, 0, 0] = none ∧
     decodeAttr .hMac [1, 2, 3] = none) := by
  refine ⟨?_, ?_, ?_, ?_, ?_, by decide, by decide⟩
  · intro msg reqs h
    rcases h with ⟨t, ht, hnone⟩
    unfold nl80211_parse_attrs
    rw [if_pos (List.any_eq_true.mpr ⟨t, ht, by rw [hnone]; rfl⟩)]
  · intro msg reqs hho hdec hdup
    unfold nl80211_parse_attrs
    rw [if_neg (by rw [parse_pre_false reqs hho]; exact Bool.false_ne_true)]
    have h1 := nlScan_ealready reqs msg initState hdec
      (Or.inr (by rcases hdup with ⟨t, ht, hc⟩; exact ⟨t, ht, hc⟩))
    rcases hscan : nlScan reqs initState msg with ⟨e, st⟩
    rw [hscan] at h1
    dsimp only at h1
    subst h1
    rfl
  · intro msg reqs hho hdec hnodup hmiss
    unfold nl80211_parse_attrs
    rw [if_neg (by rw [parse_pre_false reqs hho]; exact Bool.false_ne_true)]
    rcases hmiss with ⟨t, ht, hnf, habs⟩
    rcases Option.isSome_iff_exists.mp (mem_findReq_isSome reqs t ht)
      with ⟨i, hi⟩
    rcases nlScan_ok reqs msg initState hdec hnodup (fun _ _ _ _ => rfl)
      with ⟨st1, hrun, hpres, _⟩
    rw [hrun]
    dsimp only
    apply nlFinal_enoent
    obtain ⟨hgd, hlt⟩ := findReq_getD reqs t i hi
    refine ⟨i, hlt, by rw [hgd]; exact hnf, ?_⟩
    rw [Nat.zero_add]
    cases hb : st1.present i with
    | false => rfl
    | true =>
        rcases (hpres i).mp hb with h1 | ⟨tp, htp, hfi⟩
        · cases h1
        · exact absurd (findReq_eq_of_same_idx reqs tp.1 t i hfi hi)
            (habs tp htp)
  · intro msg reqs hho hnodup hbad
    unfold nl80211_parse_attrs
    rw [if_neg (by rw [parse_pre_false reqs hho]; exact Bool.false_ne_true)]
    have hh : ∀ tp ∈ msg, (findReq reqs tp.1).isSome = true →
        (handler_for_type tp.1).isSome = true := by
      intro tp _ hs
      rcases Option.isSome_iff_exists.mp hs with ⟨i, hi⟩
      exact hho tp.1 (findReq_mem reqs tp.1 i hi)
    have h1 := nlScan_einval reqs msg initState hh hnodup
      (fun _ _ _ _ => rfl) hbad
    rcases hscan : nlScan reqs initState msg with ⟨e, st⟩
    rw [hscan] at h1
    dsimp only at h1
    subst h1
    rfl
  · intro msg reqs hho hdec hnodup hall t i hi hflag habs
    unfold nl80211_parse_attrs
    rw [if_neg (by rw [parse_pre_false reqs hho]; exact Bool.false_ne_true)]
    rcases nlScan_ok reqs msg initState hdec hnodup (fun _ _ _ _ => rfl)
      with ⟨st1, hrun, hpres, _⟩
    rw [hrun]
    dsimp only
    have hall2 : ∀ j, j < reqs.length →
        handler_for_type (reqs.getD j (.other 0)) = some .hFlag ∨
        st1.present (0 + j) = true := by
      intro j hj
      rcases hall j hj with h1 | ⟨tp, htp, hfi⟩
      · exact Or.inl h1
      · right
        rw [Nat.zero_add]
        exact (hpres j).mpr (Or.inr ⟨tp, htp, hfi⟩)
    rcases nlFinal_none reqs 0 st1 hall2 with ⟨st2, hfin, _, _, hflags⟩
    rw [hfin]
    obtain ⟨hgd, hlt⟩ := findReq_getD reqs t i hi
    have hp1 : st1.present i = false := by
      cases hb : st1.present i with
      | false => rfl
      | true =>
          rcases (hpres i).mp hb with h1 | ⟨tp, htp, hfi⟩
          · cases h1
          · exact absurd (findReq_eq_of_same_idx reqs tp.1 t i hfi hi)
              (habs tp htp)
    have h2 := hflags i hlt (by rw [hgd]; exact hflag)
    rw [Nat.zero_add] at h2
    rw [hp1] at h2
    exact ⟨rfl, h2⟩

/-- Witness for `nl80211_parse_attrs_error_spec`: each error path exercised
at a concrete message/request pair. -/
theorem nl80211_parse_attrs_error_spec_witness :
    nl80211_parse_attrs [] [NLAttr.other 5] = (some .enosys, initState) ∧
    (nl80211_parse_attrs
      [(NLAttr.mac, [1, 2, 3, 4, 5, 6]), (NLAttr.mac, [1, 2, 3, 4, 5, 6])]
      [NLAttr.mac]).1 = some .ealready ∧
    (nl80211_parse_attrs [] [NLAttr.ifindex]).1 = some .enoent ∧
    (nl80211_parse_attrs [(NLAttr.ifindex, [0, 0, 0, 0])]
      [NLAttr.ifindex]).1 = some .einval ∧
    (nl80211_parse_attrs [] [NLAttr.ack]).1 = none ∧
    (nl80211_parse_attrs [] [NLAttr.ack]).2.store 0 = some (.vFlag false) := by
  obtain ⟨h1, h2, h3, h4, h5, _⟩ := nl80211_parse_attrs_error_spec
  refine ⟨h1 [] [NLAttr.other 5] ⟨NLAttr.other 5, by decide, rfl⟩,
    h2 _ [NLAttr.mac] (by decide) (by decide)
      ⟨NLAttr.mac, by decide, by decide⟩,
    h3 [] [NLAttr.ifindex] (by decide) (by decide) (by decide)
      ⟨NLAttr.ifindex, by decide, by decide, by decide⟩,
    h4 _ [NLAttr.ifindex] (by decide) (by decide)
      ⟨(NLAttr.ifindex, [0, 0, 0, 0]), by decide, by decide, by decide⟩,
    ?_, ?_⟩
  · exact (h5 [] [NLAttr.ack] (by decide) (by decide) (by decide) (by decide)
      NLAttr.ack 0 rfl rfl (by decide)).1
  · exact (h5 [] [NLAttr.ack] (by decide) (by decide) (by decide) (by decide)
      NLAttr.ack 0 rfl rfl (by decide)).2

/-- Claim C7 (corrected): what is true about partial output.  On the
`-ENOSYS` path (decided before the message is scanned) no caller-supplied
output location has been written; on every other path, any output that has
been written holds the value of a successfully decoded attribute of its
requested type, or a flag boolean — outputs written before the error is
detected are not rolled back (the frozen claim that no output is ever
modified on error fails). -/
theorem nl80211_parse_attrs_partial_output :
    (∀ (msg : List (NLAttr × List Nat)) (reqs : List NLAttr),
        (nl80211_parse_attrs msg reqs).1 = some .enosys →
        ∀ i, (nl80211_parse_attrs msg reqs).2.store i = none) ∧
    (∀ (msg : List (NLAttr × List Nat)) (reqs : List NLAttr) (i : Nat)
        (v : AttrVal),
        (nl80211_parse_attrs msg reqs).2.store i = some v →
        (∃ tp ∈ msg, findReq reqs tp.1 = some i ∧
          decodeOfType tp.1 tp.2 = some (some v)) ∨
        ∃ b, v = .vFlag b) := by
  constructor
  · intro msg reqs herr i
    unfold nl80211_parse_attrs at herr ⊢
    by_cases hpre : reqs.any (fun t => (handler_for_type t).isNone) = true
    · rw [if_pos hpre]
      rfl
    · rw [if_neg hpre] at herr ⊢
      have hpre2 : reqs.any (fun t => (handler_for_type t).isNone) = false := by
        cases h : reqs.any (fun t => (handler_for_type t).isNone) with
        | false => rfl
        | true => exact absurd h hpre
      have hho := pre_false_handlers reqs hpre2
      rcases hscan : nlScan reqs initState msg with ⟨e, st1⟩
      rw [hscan] at herr
      cases e with
      | some e0 =>
          dsimp only at herr
          have := nlScan_no_enosys reqs hho msg initState
          rw [hscan] at this
          dsimp only at this
          cases herr
          exact absurd rfl this
      | none =>
          dsimp only at herr
          rcases nlFinal_err reqs 0 st1 with h1 | h1
          · rw [herr] at h1; cases h1
          · rw [herr] at h1; cases h1
  · intro msg reqs i v hst
    unfold nl80211_parse_attrs at hst
    by_cases hpre : reqs.any (fun t => (handler_for_type t).isNone) = true
    · rw [if_pos hpre] at hst
      cases hst
    · rw [if_neg hpre] at hst
      rcases hscan : nlScan reqs initState msg with ⟨e, st1⟩
      rw [hscan] at hst
      have hsub : st1.store i = some v →
          (∃ tp ∈ msg, findReq reqs tp.1 = some i ∧
            decodeOfType tp.1 tp.2 = some (some v)) := by
        intro h
        have := nlScan_store_sub reqs msg initState i v (by rw [hscan]; exact h)
        rcases this with h1 | h1
        · cases h1
        · exact h1
      cases e with
      | some e0 =>
          dsimp only at hst
          exact Or.inl (hsub hst)
      | none =>
          dsimp only at hst
          rcases nlFinal_store_sub reqs 0 st1 i v hst with h1 | h1
          · exact Or.inl (hsub h1)
          · exact Or.inr h1

/-- Witness for `nl80211_parse_attrs_partial_output`: the `-ENOSYS` path
leaves the first output unwritten, and the `-EINVAL` run that wrote the
ifindex output before failing on the MAC length wrote it from a successful
ifindex decode. -/
theorem nl80211_parse_attrs_partial_output_witness :
    (nl80211_parse_attrs [(NLAttr.ifindex, [1, 0, 0, 0])]
      [NLAttr.other 9]).2.store 0 = none ∧
    ((∃ tp ∈ [(NLAttr.ifindex, ([1, 0, 0, 0] : List Nat)),
        (NLAttr.mac, [1, 2, 3])],
        findReq [NLAttr.ifindex, NLAttr.mac] tp.1 = some 0 ∧
        decodeOfType tp.1 tp.2 = some (some (.vU32 1))) ∨
      ∃ b, AttrVal.vU32 1 = .vFlag b) := by
  obtain ⟨hA, hB⟩ := nl80211_parse_attrs_partial_output
  exact ⟨hA [(NLAttr.ifindex, [1, 0, 0, 0])] [NLAttr.other 9] (by decide) 0,
    hB [(NLAttr.ifindex, [1, 0, 0, 0]), (NLAttr.mac, [1, 2, 3])]
      [NLAttr.ifindex, NLAttr.mac] 0 (.vU32 1) (by decide)⟩

/-- Claim C7, counterexample to the claim as frozen: requesting IFINDEX then
MAC against a message holding a valid ifindex followed by a 3-byte MAC
returns `-EINVAL`, yet the ifindex output location has already been written
with the decoded value 1 — partial output is emitted on this error path. -/
theorem nl80211_parse_attrs_partial_output_counterexample :
    (nl80211_parse_attrs
      [(NLAttr.ifindex, [1, 0, 0, 0]), (NLAttr.mac, [1, 2, 3])]
      [NLAttr.ifindex, NLAttr.mac]).1 = some .einval ∧
    (nl80211_parse_attrs
      [(NLAttr.ifindex, [1, 0, 0, 0]), (NLAttr.mac, [1, 2, 3])]
      [NLAttr.ifindex, NLAttr.mac]).2.store 0 = some (.vU32 1) := by
  decide

end NL

namespace DPP

theorem tokenOk_shape (pos : List Char) (h : tokenOk pos = true) :
    ∃ c0 rest2, pos = c0 :: ':' :: rest2 ∧ rest2 ≠ [] := by
  match pos with
  | [] => cases h
  | [a] => cases h
  | [a, b] => cases h
  | a :: b :: c :: t =>
      have hb : b = ':' := eq_of_beq h
      exact ⟨a, c :: t, by rw [hb], by simp⟩

theorem chrIdx_decomp (s : List Char) (c : Char) :
    ∀ j, chrIdx s c = some j →
      s = s.take j ++ c :: s.drop (j + 1) ∧ c ∉ s.take j ∧
        (s.take j).length = j := by
  induction s with
  | nil => intro j h; cases h
  | cons a rest ih =>
      intro j h
      unfold chrIdx at h
      by_cases ha : a = c
      · rw [if_pos ha] at h
        cases h
        subst ha
        simp
      · rw [if_neg ha] at h
        rcases Option.map_eq_some'.mp h with ⟨j0, hj0, hjeq⟩
        subst hjeq
        obtain ⟨h1, h2, h3⟩ := ih j0 hj0
        refine ⟨?_, ?_, ?_⟩
        · simp only [List.take_succ_cons, List.drop_succ_cons]
          rw [List.cons_append]
          rw [← h1]
        · simp only [List.take_succ_cons, List.mem_cons]
          rintro (h4 | h4)
          · exact ha h4.symm
          · exact h2 h4
        · simp only [List.take_succ_cons, List.length_cons, h3]

theorem chrIdx_cons_of_ne (a : Char) (s : List Char) (c : Char) (h : a ≠ c) :
    chrIdx (a :: s) c = (chrIdx s c).map (· + 1) := by
  show (if a = c then some 0 else (chrIdx s c).map (· + 1)) =
    (chrIdx s c).map (· + 1)
  rw [if_neg h]

theorem cons_token_decomp (c0 : Char) (v d tail : List Char)
    (toks2 : List (Char × List Char)) (h2 : d = tokensFlat toks2 ++ tail) :
    c0 :: ':' :: (v ++ ';' :: d) = tokensFlat ((c0, v) :: toks2) ++ tail := by
  subst h2
  simp [tokensFlat, List.append_assoc]

theorem uriLoop_step_rec {α : Type} (V : UriValidators α) (fuel : Nat)
    (c0 : Char) (rest2 : List Char) (j : Nat)
    (info info2 : DppUriInfo α) (res : Option (List Char) × DppUriInfo α)
    (hj : chrIdx rest2 ';' = some j)
    (hwf0 : tokWf V (c0, rest2.take j))
    (hio1 : info2.information = info.information)
    (hio2 : info2.host = info.host)
    (hbp : info2.boot_public = info.boot_public ∨
        (c0 = 'K' ∧ ∃ k, V.parseK (rest2.take j) = some k ∧
          info2.boot_public = some k))
    (hrun : uriLoop V fuel (rest2.drop (j + 1)) info2 = some res)
    (ih : ∀ (pos : List Char) (info0 : DppUriInfo α)
      (res0 : Option (List Char) × DppUriInfo α),
      uriLoop V fuel pos info0 = some res0 → uriLoopSpec V pos info0 res0) :
    uriLoopSpec V (c0 :: ':' :: rest2) info res := by
  obtain ⟨⟨hi1, hi2⟩, hp2⟩ := ih _ _ _ hrun
  refine ⟨⟨hi1.trans hio1, hi2.trans hio2⟩, ?_⟩
  intro rest hr
  obtain ⟨toks2, hd2, hwf2, hb2⟩ := hp2 rest hr
  obtain ⟨hdec, _, _⟩ := chrIdx_decomp rest2 ';' j hj
  refine ⟨(c0, rest2.take j) :: toks2, ?_, ?_, ?_⟩
  · show c0 :: ':' :: rest2 = tokensFlat ((c0, rest2.take j) :: toks2) ++ rest
    conv_lhs => rw [hdec]
    exact cons_token_decomp c0 (rest2.take j) (rest2.drop (j + 1)) rest
      toks2 hd2
  · intro tv htv
    rcases List.mem_cons.mp htv with heq | hmem
    · subst heq; exact hwf0
    · exact hwf2 tv hmem
  · rcases hb2 with hb | ⟨tv, htv2, hk, k, hpk, hbk⟩
    · rcases hbp with hbp1 | ⟨hK, k, hpk, hbk2⟩
      · exact Or.inl (hb.trans hbp1)
      · exact Or.inr ⟨(c0, rest2.take j), List.mem_cons_self _ _, hK, k,
          hpk, hb.trans hbk2⟩
    · exact Or.inr ⟨tv, List.mem_cons_of_mem _ htv2, hk, k, hpk, hbk⟩

end DPP

namespace DPP

theorem uriApplyTok_spec {α : Type} (V : UriValidators α) (c0 : Char)
    (val : List Char) (info info2 : DppUriInfo α)
    (h : uriApplyTok V c0 val info = some info2)
    (hvne : val ≠ []) (hnotin : ';' ∉ val) :
    c0 ≠ ';' ∧ info2.information = info.information ∧
    info2.host = info.host ∧ tokWf V (c0, val) ∧
    (info2.boot_public = info.boot_public ∨
      (c0 = 'K' ∧ ∃ k, V.parseK val = some k ∧ info2.boot_public = some k)) := by
  unfold uriApplyTok at h
  split at h
  · rcases Option.map_eq_some'.mp h with ⟨f, hpf, hinfo2⟩
    subst hinfo2
    exact ⟨by decide, rfl, rfl, ⟨hvne, hnotin, by rw [hpf]; rfl⟩, Or.inl rfl⟩
  · rcases Option.map_eq_some'.mp h with ⟨m, hpm, hinfo2⟩
    subst hinfo2
    exact ⟨by decide, rfl, rfl, ⟨hvne, hnotin, by rw [hpm]; rfl⟩, Or.inl rfl⟩
  · rcases Option.map_eq_some'.mp h with ⟨v, hpv, hinfo2⟩
    subst hinfo2
    exact ⟨by decide, rfl, rfl, ⟨hvne, hnotin, by rw [hpv]; rfl⟩, Or.inl rfl⟩
  · rcases Option.map_eq_some'.mp h with ⟨k, hpk, hinfo2⟩
    subst hinfo2
    exact ⟨by decide, rfl, rfl, ⟨hvne, hnotin, by rw [hpk]; rfl⟩,
      Or.inr ⟨rfl, k, hpk, rfl⟩⟩
  · cases h
    exact ⟨by decide, rfl, rfl, ⟨hvne, hnotin, trivial⟩, Or.inl rfl⟩
  · cases h
    exact ⟨by decide, rfl, rfl, ⟨hvne, hnotin, trivial⟩, Or.inl rfl⟩
  · cases h

theorem tokenNext_cons2 (c0 : Char) (rest2 : List Char) (j : Nat)
    (hc0 : c0 ≠ ';') (hj : chrIdx rest2 ';' = some j) :
    tokenNext (c0 :: ':' :: rest2) ';' =
      if j + 1 = rest2.length then none else some (rest2.drop (j + 1)) := by
  have hcolon : (':' : Char) ≠ ';' := by decide
  have hidx : chrIdx (c0 :: ':' :: rest2) ';' = some (j + 1 + 1) := by
    rw [chrIdx_cons_of_ne c0 _ ';' hc0, chrIdx_cons_of_ne ':' _ ';' hcolon, hj]
    rfl
  unfold tokenNext
  rw [hidx]
  simp only [List.length_cons]
  by_cases hlast : j + 1 = rest2.length
  · rw [if_pos (by omega), if_pos hlast]
  · rw [if_neg (by omega), if_neg hlast]
    simp only [List.drop_succ_cons]

/-- Helper for the null-terminated exits of the token loop. -/
theorem uriLoopSpec_null {α : Type} (V : UriValidators α) (pos : List Char)
    (info info2 : DppUriInfo α)
    (h1 : info2.information = info.information)
    (h2 : info2.host = info.host) :
    uriLoopSpec V pos info (none, info2) :=
  ⟨⟨h1, h2⟩, fun _ hr => Option.noConfusion hr⟩

theorem uriLoop_spec {α : Type} (V : UriValidators α) :
    ∀ (fuel : Nat) (pos : List Char) (info : DppUriInfo α)
      (res : Option (List Char) × DppUriInfo α),
    uriLoop V fuel pos info = some res → uriLoopSpec V pos info res := by
  intro fuel
  induction fuel with
  | zero => intro pos info res h; cases h
  | succ fuel ih =>
      intro pos info res hrun
      unfold uriLoop at hrun
      by_cases hok : tokenOk pos = true
      · rw [if_pos hok] at hrun
        obtain ⟨c0, rest2, hpos, _⟩ := tokenOk_shape pos hok
        subst hpos
        simp only [List.drop_succ_cons, List.drop_zero, List.headD_cons]
          at hrun
        by_cases hlen : tokenLen rest2 ';' = 0
        · rw [if_pos hlen] at hrun
          cases hrun
        · rw [if_neg hlen] at hrun
          cases hj : chrIdx rest2 ';' with
          | none =>
              refine absurd ?_ hlen
              unfold tokenLen
              rw [hj]
          | some j =>
              have hjlen : tokenLen rest2 ';' = j := by
                unfold tokenLen
                rw [hj]
              rw [hjlen] at hrun
              have hjne : j ≠ 0 := by rw [← hjlen]; exact hlen
              obtain ⟨hdecom, hnotin, htklen⟩ := chrIdx_decomp rest2 ';' j hj
              have hvne : rest2.take j ≠ [] := by
                intro hnil
                rw [hnil] at htklen
                exact hjne htklen.symm
              cases hap : uriApplyTok V c0 (rest2.take j) info with
              | none =>
                  rw [hap] at hrun
                  exact Option.noConfusion hrun
              | some info2 =>
                  rw [hap] at hrun
                  obtain ⟨hc0, hio1, hio2, hwf0, hbp⟩ :=
                    uriApplyTok_spec V c0 (rest2.take j) info info2 hap
                      hvne hnotin
                  rw [tokenNext_cons2 c0 rest2 j hc0 hj] at hrun
                  by_cases hlast : j + 1 = rest2.length
                  · rw [if_pos hlast] at hrun
                    have hrun2 : some ((none : Option (List Char)), info2) =
                        some res := hrun
                    injection hrun2 with h2
                    subst h2
                    exact uriLoopSpec_null V _ info info2 hio1 hio2
                  · rw [if_neg hlast] at hrun
                    have hrun2 : uriLoop V fuel (rest2.drop (j + 1)) info2 =
                        some res := hrun
                    exact uriLoop_step_rec V fuel c0 rest2 j info info2 res hj
                      hwf0 hio1 hio2 hbp hrun2 ih
      · rw [if_neg hok] at hrun
        cases hrun
        refine ⟨⟨rfl, rfl⟩, ?_⟩
        intro rest hrest
        cases hrest
        exact ⟨[], by simp [tokensFlat], fun tv htv => absurd htv
          (List.not_mem_nil tv), Or.inl rfl⟩

end DPP

namespace DPP

theorem dpp_parse_uri_inv {α : Type} (V : UriValidators α) (uri : List Char)
    (info : DppUriInfo α) (h : dpp_parse_uri V uri = some info) :
    uri.take 4 = ['D', 'P', 'P', ':'] ∧ info.boot_public.isSome = true ∧
    ∃ rest : List Char, rest.length = 1 ∧
      uriLoop V (uri.length + 1) (uri.drop 4) uriInfoInit =
        some (some rest, info) := by
  unfold dpp_parse_uri at h
  by_cases hpre : uri.take 4 = ['D', 'P', 'P', ':']
  · rw [if_pos hpre] at h
    cases hloop : uriLoop V (uri.length + 1) (uri.drop 4) uriInfoInit with
    | none =>
        rw [hloop] at h
        cases h
    | some pr =>
        obtain ⟨posF, info1⟩ := pr
        rw [hloop] at h
        dsimp only at h
        cases posF with
        | none => cases h
        | some rest =>
            dsimp only at h
            by_cases hlast : rest.length = 1
            · rw [if_pos hlast] at h
              by_cases hbp : info1.boot_public.isSome = true
              · rw [if_pos hbp] at h
                injection h with h2
                subst h2
                exact ⟨hpre, hbp, rest, hlast, rfl⟩
              · rw [if_neg hbp] at h
                cases h
            · rw [if_neg hlast] at h
              cases h
  · rw [if_neg hpre] at h
    cases h

/-- Claim C8 (corrected): necessity conditions of `dpp_parse_uri`.  A parse
succeeds only on strings of the exact shape `DPP:` followed by a run of
well-formed tokens `X:value;` — every value non-empty (a bare `X:;` fails)
with a recognized id whose validator succeeds, among them a mandatory `K`
token accepted by the key validator — followed by exactly one additional
character closing the URI.  The frozen claim requires that closing character
to be `;`; the code only checks `pos == end` after `TOKEN_NEXT`, so any
single character is accepted there (see the counterexample), while a missing
closing character (single terminating `;`), further content after it, or a
missing `K` token still fail. -/
theorem dpp_parse_uri_spec {α : Type} (V : UriValidators α) (uri : List Char)
    (info : DppUriInfo α) (h : dpp_parse_uri V uri = some info) :
    uri.take 4 = ['D', 'P', 'P', ':'] ∧
    info.boot_public.isSome = true ∧
    ∃ toks lastc, uri = ['D', 'P', 'P', ':'] ++ tokensFlat toks ++ [lastc] ∧
      (∀ tv ∈ toks, tokWf V tv) ∧
      ∃ tv ∈ toks, tv.1 = 'K' ∧ (V.parseK tv.2).isSome = true := by
  obtain ⟨hpre, hbp, rest, hlast, hloop⟩ := dpp_parse_uri_inv V uri info h
  obtain ⟨⟨_, _⟩, hpart2⟩ := uriLoop_spec V (uri.length + 1) (uri.drop 4)
    uriInfoInit (some rest, info) hloop
  obtain ⟨toks, hdec, hwf, hboot⟩ := hpart2 rest rfl
  obtain ⟨c, hc⟩ := List.length_eq_one.mp hlast
  subst hc
  refine ⟨hpre, hbp, toks, c, ?_, hwf, ?_⟩
  · rw [← List.take_append_drop 4 uri, hpre, hdec]
    simp
  · rcases hboot with h1 | ⟨tv, htv, hk, k, hpk, _⟩
    · rw [h1] at hbp
      cases hbp
    · exact ⟨tv, htv, hk, by rw [hpk]; rfl⟩

/-- Witness for `dpp_parse_uri_spec`: the well-terminated URI `DPP:K:x;;`
under the concrete validators. -/
theorem dpp_parse_uri_spec_witness :
    toyUriGood.take 4 = ['D', 'P', 'P', ':'] ∧
    toyUriParsed.boot_public.isSome = true ∧
    ∃ toks lastc,
      toyUriGood = ['D', 'P', 'P', ':'] ++ tokensFlat toks ++ [lastc] ∧
      (∀ tv ∈ toks, tokWf toyUriV tv) ∧
      ∃ tv ∈ toks, tv.1 = 'K' ∧ (toyUriV.parseK tv.2).isSome = true :=
  dpp_parse_uri_spec toyUriV toyUriGood toyUriParsed (by decide)

/-- Claim C8, counterexample to the claim as frozen: `dpp_parse_uri` accepts
`DPP:K:x;Z`, whose closing character after the last token's `;` is `Z`, not
the `;` the claim requires — the final check is only `pos == end`, never that
the last character is a semicolon.  For contrast, a single terminating `;`
(nothing after the last token) still fails. -/
theorem dpp_parse_uri_terminator_counterexample :
    dpp_parse_uri toyUriV toyUriOddEnd = some toyUriParsed ∧
    toyUriOddEnd.getLast? = some 'Z' ∧ ('Z' : Char) ≠ ';' ∧
    dpp_parse_uri toyUriV ['D', 'P', 'P', ':', 'K', ':', 'x', ';'] = none := by
  exact ⟨by decide, by decide, by decide, by decide⟩

/-- Claim C10 (confirmed): for every URI accepted by `dpp_parse_uri`, the
returned `dpp_uri_info` has its information (`I:`) and host (`H:`) fields
unset, even when such tokens are present with non-empty values; the loop
checks those token values only for non-emptiness and discards them (the
`H`/`I` cases of the switch only `break`). -/
theorem dpp_parse_uri_discards_information_host {α : Type}
    (V : UriValidators α) (uri : List Char) (info : DppUriInfo α)
    (h : dpp_parse_uri V uri = some info) :
    info.information = none ∧ info.host = none := by
  obtain ⟨_, _, rest, _, hloop⟩ := dpp_parse_uri_inv V uri info h
  obtain ⟨⟨h1, h2⟩, _⟩ := uriLoop_spec V (uri.length + 1) (uri.drop 4)
    uriInfoInit (some rest, info) hloop
  exact ⟨h1, h2⟩

/-- Witness for `dpp_parse_uri_discards_information_host`: the URI
`DPP:K:x;I:ab;H:cd;;` carries non-empty `I:` and `H:` tokens, parses
successfully, and the result has both fields unset. -/
theorem dpp_parse_uri_discards_information_host_witness :
    dpp_parse_uri toyUriV toyUriWithIH = some toyUriParsed ∧
    toyUriParsed.information = none ∧ toyUriParsed.host = none :=
  ⟨by decide,
   (dpp_parse_uri_discards_information_host toyUriV toyUriWithIH toyUriParsed
      (by decide)).1,
   (dpp_parse_uri_discards_information_host toyUriV toyUriWithIH toyUriParsed
      (by decide)).2⟩

theorem dppSerializeAttrs_cons_length (a : Nat × List Nat)
    (t : List (Nat × List Nat)) :
    (dppSerializeAttrs (a :: t)).length =
      a.2.length + 4 + (dppSerializeAttrs t).length := by
  simp only [dppSerializeAttrs, List.map_cons, List.flatten_cons,
    List.length_append, le16, List.length_cons, List.length_nil]
  omega

theorem dppAttrsLen_aux (attrs : List (Nat × List Nat)) (acc : Nat) :
    List.foldl (fun acc a => acc + (a.2.length + 4)) acc attrs =
      acc + (dppSerializeAttrs attrs).length := by
  induction attrs generalizing acc with
  | nil => simp [dppSerializeAttrs]
  | cons a t ih =>
      rw [List.foldl_cons, ih, dppSerializeAttrs_cons_length]
      omega

theorem dppAttrsLen_eq (attrs : List (Nat × List Nat)) :
    dppAttrsLen attrs = (dppSerializeAttrs attrs).length := by
  unfold dppAttrsLen
  rw [dppAttrsLen_aux]
  omega

theorem getD_set_self (l : List Nat) (i b d : Nat) (h : i < l.length) :
    (l.set i b).getD i d = b := by
  simp [List.getD_eq_getElem?_getD, List.getElem?_set_self h]

theorem getD_set_ne (l : List Nat) (i j b d : Nat) (h : i ≠ j) :
    (l.set i b).getD j d = l.getD j d := by
  simp [List.getD_eq_getElem?_getD, List.getElem?_set_ne h]

theorem flip1_ne (l1 l2 : List Nat) (h : flip1 l1 l2) : l2 ≠ l1 := by
  obtain ⟨i, b, hi, hb, hset⟩ := h
  subst hset
  intro he
  apply hb
  calc b = (l1.set i b).getD i 0 := (getD_set_self l1 i b 0 hi).symm
    _ = l1.getD i 0 := by rw [he]

theorem adFlip_ne (ads ads2 : List (List Nat)) (h : adFlip ads ads2) :
    ads ≠ ads2 := by
  obtain ⟨hlen, n, hn, hfl, _⟩ := h
  intro he
  exact flip1_ne _ _ hfl (by rw [he])

theorem adFlip_head (a a2 : List Nat) (t : List (List Nat))
    (h : flip1 a a2) : adFlip (a :: t) (a2 :: t) := by
  refine ⟨by simp, 0, by simp only [List.length_cons]; omega, ?_, ?_⟩
  · simpa using h
  · intro m hm hm0
    cases m with
    | zero => exact absurd rfl hm0
    | succ m0 => simp [List.getD_cons_succ]

theorem adFlip_cons (a : List Nat) (t t2 : List (List Nat))
    (h : adFlip t t2) : adFlip (a :: t) (a :: t2) := by
  obtain ⟨hlen, n, hn, hfl, hoth⟩ := h
  refine ⟨by simp [hlen], n + 1, by simp only [List.length_cons]; omega,
    ?_, ?_⟩
  · simpa using hfl
  · intro m hm hmn
    cases m with
    | zero => simp
    | succ m0 =>
        simp only [List.getD_cons_succ]
        exact hoth m0 (by simp only [List.length_cons] at hm; omega)
          (by omega)

theorem encL_inj : ∀ l1 l2 : List Nat, encL l1 = encL l2 → l1 = l2 := by
  intro l1
  induction l1 with
  | nil =>
      intro l2 h
      cases l2 with
      | nil => rfl
      | cons b t =>
          have h2 : (0 : Nat) = Nat.pair b (encL t) + 1 := h
          omega
  | cons a t ih =>
      intro l2 h
      cases l2 with
      | nil =>
          have h2 : Nat.pair a (encL t) + 1 = 0 := h
          omega
      | cons b t2 =>
          have h2 : Nat.pair a (encL t) + 1 = Nat.pair b (encL t2) + 1 := h
          have h3 : Nat.pair a (encL t) = Nat.pair b (encL t2) := by omega
          rw [Nat.pair_eq_pair] at h3
          rw [h3.1, ih t2 h3.2]

theorem encLL_inj (l1 l2 : List (List Nat)) (h : encLL l1 = encLL l2) :
    l1 = l2 :=
  List.map_injective_iff.mpr (fun a b hab => encL_inj a b hab)
    (encL_inj _ _ h)

theorem encCtx_inj (k1 k2 : List Nat) (a1 a2 : List (List Nat))
    (p1 p2 : List Nat) (h : encCtx k1 a1 p1 = encCtx k2 a2 p2) :
    k1 = k2 ∧ a1 = a2 ∧ p1 = p2 := by
  unfold encCtx at h
  rw [Nat.pair_eq_pair] at h
  obtain ⟨hk, h2⟩ := h
  rw [Nat.pair_eq_pair] at h2
  exact ⟨encL_inj _ _ hk, encLL_inj _ _ h2.1, encL_inj _ _ h2.2⟩

theorem toySivEnc_length (k : List Nat) (ads : List (List Nat))
    (pt : List Nat) : (toySivEnc k ads pt).length = pt.length + 16 := by
  simp only [toySivEnc, List.length_cons, List.length_append,
    List.length_replicate]
  omega

theorem toySivEnc_drop16 (k : List Nat) (ads : List (List Nat))
    (pt : List Nat) : (toySivEnc k ads pt).drop 16 = pt := by
  have h : toySivEnc k ads pt =
      (encCtx k ads pt :: List.replicate 15 0) ++ pt := by
    simp [toySivEnc]
  rw [h, List.drop_left' (by simp)]

theorem toySivDec_enc (k : List Nat) (ads : List (List Nat))
    (pt : List Nat) : toySivDec k ads (toySivEnc k ads pt) = some pt := by
  unfold toySivDec
  rw [toySivEnc_drop16, if_pos rfl]

theorem toySivDec_flip_ct (k : List Nat) (ads : List (List Nat))
    (pt ct2 : List Nat) (h : flip1 (toySivEnc k ads pt) ct2) :
    toySivDec k ads ct2 = none := by
  obtain ⟨i, b, hi, hb, hset⟩ := h
  have hne : ¬ ct2 = toySivEnc k ads (ct2.drop 16) := by
    intro hcond
    by_cases h16 : i < 16
    · have hd : ct2.drop 16 = pt := by
        rw [hset, List.drop_set_of_lt b _ h16, toySivEnc_drop16]
      rw [hd] at hcond
      exact flip1_ne _ _ ⟨i, b, hi, hb, hset⟩ hcond
    · have h16' : 16 ≤ i := Nat.le_of_not_lt h16
      have hhead : ct2.getD 0 0 = encCtx k ads pt := by
        rw [hset, getD_set_ne (toySivEnc k ads pt) i 0 b 0 (by omega)]
        rfl
      have hhead2 : ct2.getD 0 0 = encCtx k ads (ct2.drop 16) := by
        conv_lhs => rw [hcond]
        rfl
      have hpt := (encCtx_inj _ _ _ _ _ _ (hhead.symm.trans hhead2)).2.2
      rw [← hpt] at hcond
      exact flip1_ne _ _ ⟨i, b, hi, hb, hset⟩ hcond
  unfold toySivDec
  rw [if_neg hne]

theorem toySivDec_flip_ad (k : List Nat) (ads ads2 : List (List Nat))
    (pt : List Nat) (h : adFlip ads ads2) :
    toySivDec k ads2 (toySivEnc k ads pt) = none := by
  have hne : ¬ toySivEnc k ads pt =
      toySivEnc k ads2 ((toySivEnc k ads pt).drop 16) := by
    rw [toySivEnc_drop16]
    intro hcond
    have hctx : encCtx k ads pt = encCtx k ads2 pt :=
      congrArg (fun l => l.getD 0 0) hcond
    exact adFlip_ne _ _ h (encCtx_inj _ _ _ _ _ _ hctx).2.1
  unfold toySivDec
  rw [if_neg hne]

/-- Claim C4 (confirmed, over the SIV contract): with the AES-SIV
collaborator satisfying the contract — ciphertext sixteen bytes longer than
the plaintext, decryption under the same key and AD inverting encryption,
and authentication failure on a one-byte flip of the ciphertext or of an AD
chunk — `dpp_append_wrapped_data` emits
`u16 DPP_ATTR_WRAPPED_DATA | u16 (plaintext length + 16) | ciphertext`
whenever the output buffer is large enough; `dpp_unwrap_attr` under the same
key and AD returns the serialized attributes bit-for-bit with reported
length `ciphertext length - 16`, which equals the plaintext length; and
`dpp_unwrap_attr` fails on any one-byte flip of the ciphertext or of either
AD chunk. -/
theorem dpp_wrapped_data_roundtrip
    (enc : List Nat → List (List Nat) → List Nat → List Nat)
    (dec : List Nat → List (List Nat) → List Nat → Option (List Nat))
    (hlen : ∀ k ad pt, (enc k ad pt).length = pt.length + 16)
    (hdec : ∀ k ad pt, dec k ad (enc k ad pt) = some pt)
    (hflip_ct : ∀ k ad pt ct2, flip1 (enc k ad pt) ct2 →
      dec k ad ct2 = none)
    (hflip_ad : ∀ k ad ad2 pt, adFlip ad ad2 →
      dec k ad2 (enc k ad pt) = none)
    (ad0 ad1 : Option (List Nat)) (to_len : Nat) (key : List Nat)
    (attrs : List (Nat × List Nat))
    (hsz : dppAttrsLen attrs + 4 + 16 ≤ to_len) :
    dpp_append_wrapped_data enc ad0 ad1 to_len key attrs =
      some (le16 DPP_ATTR_WRAPPED_DATA ++
        le16 ((dppSerializeAttrs attrs).length + 16) ++
        enc key (dppAdList ad0 ad1) (dppSerializeAttrs attrs)) ∧
    (enc key (dppAdList ad0 ad1) (dppSerializeAttrs attrs)).length =
      (dppSerializeAttrs attrs).length + 16 ∧
    dpp_unwrap_attr dec ad0 ad1 key
        (enc key (dppAdList ad0 ad1) (dppSerializeAttrs attrs)) =
      some (dppSerializeAttrs attrs,
        (enc key (dppAdList ad0 ad1) (dppSerializeAttrs attrs)).length
          - 16) ∧
    (enc key (dppAdList ad0 ad1) (dppSerializeAttrs attrs)).length - 16 =
      (dppSerializeAttrs attrs).length ∧
    (∀ ct2,
      flip1 (enc key (dppAdList ad0 ad1) (dppSerializeAttrs attrs)) ct2 →
      dpp_unwrap_attr dec ad0 ad1 key ct2 = none) ∧
    (∀ a0 a2, ad0 = some a0 → flip1 a0 a2 →
      dpp_unwrap_attr dec (some a2) ad1 key
        (enc key (dppAdList ad0 ad1) (dppSerializeAttrs attrs)) = none) ∧
    (∀ a1 a2, ad1 = some a1 → flip1 a1 a2 →
      dpp_unwrap_attr dec ad0 (some a2) key
        (enc key (dppAdList ad0 ad1) (dppSerializeAttrs attrs)) = none) := by
  refine ⟨?_, hlen _ _ _, ?_, ?_, ?_, ?_, ?_⟩
  · unfold dpp_append_wrapped_data
    rw [if_neg (by omega), dppAttrsLen_eq]
  · unfold dpp_unwrap_attr
    rw [hdec]
  · have h := hlen key (dppAdList ad0 ad1) (dppSerializeAttrs attrs)
    omega
  · intro ct2 hf
    unfold dpp_unwrap_attr
    rw [hflip_ct _ _ _ _ hf]
  · intro a0 a2 h0 hf
    subst h0
    have haf : adFlip (dppAdList (some a0) ad1)
        (dppAdList (some a2) ad1) := by
      cases ad1 with
      | none => exact adFlip_head _ _ _ hf
      | some a1 => exact adFlip_head _ _ _ hf
    unfold dpp_unwrap_attr
    rw [hflip_ad _ _ _ _ haf]
  · intro a1 a2 h1 hf
    subst h1
    have haf : adFlip (dppAdList ad0 (some a1))
        (dppAdList ad0 (some a2)) := by
      cases ad0 with
      | none => exact adFlip_head _ _ _ hf
      | some a0 => exact adFlip_cons _ _ _ (adFlip_head _ _ _ hf)
    unfold dpp_unwrap_attr
    rw [hflip_ad _ _ _ _ haf]

/-- Witness for `dpp_wrapped_data_roundtrip`: the concrete SIV-contract
instance `toySivEnc`/`toySivDec` at key `[9]`, AD chunks `[1]` and none,
and one attribute `(type 1, data [5])`: the wrapped attribute is laid out as
claimed and unwrapping returns the serialized attribute with length
`ciphertext length - 16`. -/
theorem dpp_wrapped_data_roundtrip_witness :
    dpp_append_wrapped_data toySivEnc (some [1]) none 100 [9] [(1, [5])] =
      some (le16 DPP_ATTR_WRAPPED_DATA ++
        le16 ((dppSerializeAttrs [(1, [5])]).length + 16) ++
        toySivEnc [9] (dppAdList (some [1]) none)
          (dppSerializeAttrs [(1, [5])])) ∧
    dpp_unwrap_attr toySivDec (some [1]) none [9]
        (toySivEnc [9] (dppAdList (some [1]) none)
          (dppSerializeAttrs [(1, [5])])) =
      some (dppSerializeAttrs [(1, [5])],
        (toySivEnc [9] (dppAdList (some [1]) none)
          (dppSerializeAttrs [(1, [5])])).length - 16) ∧
    (toySivEnc [9] (dppAdList (some [1]) none)
        (dppSerializeAttrs [(1, [5])])).length - 16 =
      (dppSerializeAttrs [(1, [5])]).length := by
  have h := dpp_wrapped_data_roundtrip toySivEnc toySivDec
    (fun k ad pt => toySivEnc_length k ad pt)
    (fun k ad pt => toySivDec_enc k ad pt)
    (fun k ad pt ct2 hf => toySivDec_flip_ct k ad pt ct2 hf)
    (fun k ad ad2 pt hf => toySivDec_flip_ad k ad ad2 pt hf)
    (some [1]) none 100 [9] [(1, [5])] (by decide)
  exact ⟨h.1, h.2.2.1, h.2.2.2.1⟩

end DPP
